import Mathlib

set_option maxHeartbeats 1000000
set_option maxRecDepth 8000

/-
  Verification of the schema inference and diagnostic query engine of a
  MongoDB/FastAPI gateway service.  The Python sources embedded here are
  src/schema_infer.py (extract_paths, flatten_nested_lists_recursively,
  _safe_value, get_schema_map_and_samples) and src/main.py
  (convert_objectids, normalize_objectid, aggregate_query).
-/

namespace Mongo

/-- Shallow embedding of the runtime values that flow through the service:
JSON primitives, BSON ObjectId (12 raw bytes), binary blobs, datetime and
date values (carried by their ISO rendering, which is all the code ever
extracts from them), ordered sequences and string-keyed mappings.
Floating point numbers are carried as opaque integral tokens; no claim
depends on float arithmetic. -/
inductive Value where
  | vnull : Value
  | vbool : Bool → Value
  | vint : Int → Value
  | vfloat : Int → Value
  | vstr : String → Value
  | vbytes : List Nat → Value
  | voidv : List Nat → Value
  | vdatetime : String → Value
  | vdate : String → Value
  | vlist : List Value → Value
  | vdict : List (String × Value) → Value

/-- Python expression type(v).__name__, the runtime type tag recorded by
extract_paths. -/
def type_name : Value → String
  | .vnull => "NoneType"
  | .vbool _ => "bool"
  | .vint _ => "int"
  | .vfloat _ => "float"
  | .vstr _ => "str"
  | .vbytes _ => "bytes"
  | .voidv _ => "ObjectId"
  | .vdatetime _ => "datetime"
  | .vdate _ => "date"
  | .vlist _ => "list"
  | .vdict _ => "dict"

/-- Test isinstance(v, list). -/
def isList : Value → Bool
  | .vlist _ => true
  | _ => false

/-- Dictionary lookup, Python d[k] guarded by k in d.  Python dictionaries
have unique keys; on association lists the first binding wins. -/
def lookupKey {α : Type} : List (String × α) → String → Option α
  | [], _ => none
  | (k, v) :: rest, key => if key = k then some v else lookupKey rest key

/-- Python dictionary item assignment d[k] = w for a key already present:
the binding is replaced in place, insertion order is preserved. -/
def setKey {α : Type} : List (String × α) → String → α → List (String × α)
  | [], _, _ => []
  | (k, v) :: rest, key, w =>
      (if k = key then (k, w) else (k, v)) :: setKey rest key w

theorem lookupKey_setKey {α : Type} (kvs : List (String × α)) (key : String)
    (w : α) : lookupKey (setKey kvs key w) key =
      (lookupKey kvs key).map (fun _ => w) := by
  induction kvs with
  | nil => rfl
  | cons p rest ih =>
    obtain ⟨k, v⟩ := p
    by_cases h : k = key
    · subst h
      simp only [setKey]
      simp [lookupKey]
    · have h2 : ¬ key = k := fun hh => h hh.symm
      simp only [setKey]
      rw [if_neg h]
      simp [lookupKey, h2, ih]

/-- Hexadecimal digit test used by bson.ObjectId.is_valid on 24-character
strings. -/
def isHexDigit (c : Char) : Bool :=
  c.isDigit || ('a' ≤ c && c ≤ 'f') || ('A' ≤ c && c ≤ 'F')

/-- Lowercase hexadecimal digit for a nibble, as produced by the string
rendering of a bson ObjectId. -/
def hexDigitChar (n : Nat) : Char :=
  if n < 10 then Char.ofNat (48 + n) else Char.ofNat (97 + n - 10)

/-- Numeric value of a hexadecimal digit character. -/
def hexVal (c : Char) : Nat :=
  if c.isDigit then c.toNat - 48
  else if 'a' ≤ c && c ≤ 'f' then c.toNat - 97 + 10
  else c.toNat - 65 + 10

/-- Lowercase hexadecimal rendering of a byte list; this is str(ObjectId),
the canonical string encoding of the unique document identifier. -/
def hexEncode (bs : List Nat) : String :=
  String.mk (bs.foldr
    (fun b acc => hexDigitChar (b / 16) :: hexDigitChar (b % 16) :: acc) [])

/-- Decode pairs of hexadecimal characters into bytes; this is the parsing
done by the ObjectId constructor on a valid 24-character hex string. -/
def hexDecodePairs : List Char → List Nat
  | c1 :: c2 :: rest => (16 * hexVal c1 + hexVal c2) :: hexDecodePairs rest
  | _ => []

/-- Python bson.ObjectId.is_valid for string input: exactly 24 hexadecimal
characters. -/
def ObjectId_is_valid (s : String) : Bool :=
  s.length = 24 && s.data.all isHexDigit

/-- Python ObjectId(s) for a valid 24-character hex string s: the canonical
12-byte identifier it denotes. -/
def oidOfString (s : String) : Value :=
  .voidv (hexDecodePairs s.data)

theorem hexVal_hexDigitChar :
    ∀ d, d < 16 → hexVal (hexDigitChar d) = d ∧
      isHexDigit (hexDigitChar d) = true := by decide

theorem hexEncode_data_cons (b : Nat) (rest : List Nat) :
    (hexEncode (b :: rest)).data =
      hexDigitChar (b / 16) :: hexDigitChar (b % 16) :: (hexEncode rest).data :=
  rfl

theorem hexDecodePairs_hexEncode (bs : List Nat) (hb : ∀ b ∈ bs, b < 256) :
    hexDecodePairs (hexEncode bs).data = bs := by
  induction bs with
  | nil => rfl
  | cons b rest ih =>
    have hblt : b < 256 := hb b (by simp)
    have h1 : b / 16 < 16 := Nat.div_lt_of_lt_mul (by omega)
    have h2 : b % 16 < 16 := Nat.mod_lt _ (by omega)
    rw [hexEncode_data_cons, hexDecodePairs,
      (hexVal_hexDigitChar _ h1).1, (hexVal_hexDigitChar _ h2).1,
      ih (fun x hx => hb x (by simp [hx]))]
    congr 1
    omega

theorem hexEncode_data_length (bs : List Nat) :
    (hexEncode bs).data.length = 2 * bs.length := by
  induction bs with
  | nil => rfl
  | cons b rest ih =>
    rw [hexEncode_data_cons]
    simp only [List.length_cons, List.length_cons, ih]
    omega

theorem hexEncode_length (bs : List Nat) :
    (hexEncode bs).length = 2 * bs.length :=
  hexEncode_data_length bs

theorem hexEncode_all_hex (bs : List Nat) (hb : ∀ b ∈ bs, b < 256) :
    (hexEncode bs).data.all isHexDigit = true := by
  induction bs with
  | nil => rfl
  | cons b rest ih =>
    have hblt : b < 256 := hb b (by simp)
    have h1 : b / 16 < 16 := Nat.div_lt_of_lt_mul (by omega)
    have h2 : b % 16 < 16 := Nat.mod_lt _ (by omega)
    rw [hexEncode_data_cons]
    simp only [List.all_cons, Bool.and_eq_true]
    exact ⟨(hexVal_hexDigitChar _ h1).2,
      (hexVal_hexDigitChar _ h2).2, by simpa using ih (fun x hx => hb x (by simp [hx]))⟩

theorem ObjectId_is_valid_hexEncode (bs : List Nat) (h12 : bs.length = 12)
    (hb : ∀ b ∈ bs, b < 256) : ObjectId_is_valid (hexEncode bs) = true := by
  simp [ObjectId_is_valid, hexEncode_length, h12, hexEncode_all_hex bs hb]

/-- Standard base64 alphabet. -/
def b64Alphabet : List Char :=
  "ABCDEFGHIJKLMNOPQRSTUVWXYZabcdefghijklmnopqrstuvwxyz0123456789+/".data

def b64Char (n : Nat) : Char := b64Alphabet.getD n 'A'

/-- Python base64.b64encode(bytes(v)).decode(\"ascii\"): standard base64
with padding, processing the byte list in groups of three. -/
def base64Encode : List Nat → String
  | [] => ""
  | [b1] =>
      String.mk [b64Char (b1 / 4), b64Char (b1 % 4 * 16), '=', '=']
  | [b1, b2] =>
      String.mk [b64Char (b1 / 4), b64Char (b1 % 4 * 16 + b2 / 16),
        b64Char (b2 % 16 * 4), '=']
  | b1 :: b2 :: b3 :: rest =>
      String.mk [b64Char (b1 / 4), b64Char (b1 % 4 * 16 + b2 / 16),
        b64Char (b2 % 16 * 4 + b3 / 64), b64Char (b3 % 64)] ++
        base64Encode rest

/-- Single-level collapse of a list: every element that is itself a list
is replaced by its elements in place, other elements are kept.  This is
the flattened_list loop of flatten_nested_lists_recursively, executed when
the list directly contains at least one list. -/
def collapse : List Value → List Value
  | [] => []
  | .vlist ys :: rest => ys ++ collapse rest
  | x :: rest => x :: collapse rest

mutual
/-- Python flatten_nested_lists_recursively: a mapping is flattened value
by value; a list that directly contains a list is first collapsed one
level and then every element of the result is flattened recursively; a
list without nested lists has every element flattened; scalars pass
through.  The one-level collapse followed by the per-element recursion is
fused here into flattenCollapsed so that the recursion is structural; the
lemma flatten_vlist_eq below recovers the literal collapse-then-map form
of the source. -/
def flatten_nested_lists_recursively : Value → Value
  | .vdict kvs => .vdict (flattenKVs kvs)
  | .vlist xs =>
      .vlist (if xs.any isList then flattenCollapsed xs else flattenEach xs)
  | v => v

def flattenKVs : List (String × Value) → List (String × Value)
  | [] => []
  | (k, v) :: rest => (k, flatten_nested_lists_recursively v) :: flattenKVs rest

def flattenEach : List Value → List Value
  | [] => []
  | x :: rest => flatten_nested_lists_recursively x :: flattenEach rest

def flattenCollapsed : List Value → List Value
  | [] => []
  | .vlist ys :: rest => flattenEach ys ++ flattenCollapsed rest
  | x :: rest => flatten_nested_lists_recursively x :: flattenCollapsed rest
end

theorem flattenEach_eq_map (xs : List Value) :
    flattenEach xs = xs.map flatten_nested_lists_recursively := by
  induction xs with
  | nil => rfl
  | cons x rest ih => rw [flattenEach, ih, List.map_cons]

theorem flattenKVs_eq_map (kvs : List (String × Value)) :
    flattenKVs kvs =
      kvs.map (fun p => (p.1, flatten_nested_lists_recursively p.2)) := by
  induction kvs with
  | nil => rfl
  | cons p rest ih =>
    obtain ⟨k, v⟩ := p
    rw [flattenKVs, ih, List.map_cons]

theorem flattenCollapsed_eq_map (xs : List Value) :
    flattenCollapsed xs = (collapse xs).map flatten_nested_lists_recursively := by
  induction xs with
  | nil => rfl
  | cons x rest ih =>
    cases x <;>
      simp [flattenCollapsed, collapse, flattenEach_eq_map, ih]

/-- The list branch of the source, literally: collapse one level when a
nested list is present, then flatten every element of the result. -/
theorem flatten_vlist_eq (xs : List Value) :
    flatten_nested_lists_recursively (.vlist xs) =
      .vlist ((if xs.any isList then collapse xs else xs).map
        flatten_nested_lists_recursively) := by
  by_cases h : xs.any isList
  · rw [flatten_nested_lists_recursively, if_pos h, if_pos h,
      flattenCollapsed_eq_map]
  · rw [flatten_nested_lists_recursively, if_neg h, if_neg h,
      flattenEach_eq_map]

mutual
/-- A value is flat when no list anywhere in it directly contains another
list; on such values the flattener has nothing to do. -/
def isFlat : Value → Bool
  | .vdict kvs => isFlatKVs kvs
  | .vlist xs => isFlatElems xs
  | _ => true

def isFlatKVs : List (String × Value) → Bool
  | [] => true
  | (_, v) :: rest => isFlat v && isFlatKVs rest

def isFlatElems : List Value → Bool
  | [] => true
  | x :: rest => (!isList x && isFlat x) && isFlatElems rest
end

mutual
/-- List nesting bounded by two: no list directly contains a list that
itself directly contains a list.  One collapse pass removes exactly one
nesting level, so this is the region on which a single application of the
flattener reaches a fixed point. -/
def nestLe2 : Value → Bool
  | .vdict kvs => nestLe2KVs kvs
  | .vlist xs => nestLe2Elems xs
  | _ => true

def nestLe2KVs : List (String × Value) → Bool
  | [] => true
  | (_, v) :: rest => nestLe2 v && nestLe2KVs rest

def nestLe2Elems : List Value → Bool
  | [] => true
  | .vlist ys :: rest => nestLe2Inner ys && nestLe2Elems rest
  | x :: rest => nestLe2 x && nestLe2Elems rest

def nestLe2Inner : List Value → Bool
  | [] => true
  | y :: rest => (!isList y && nestLe2 y) && nestLe2Inner rest
end

theorem any_isList_of_isFlatElems : ∀ xs : List Value,
    isFlatElems xs = true → xs.any isList = false := by
  intro xs
  induction xs with
  | nil => intro _; rfl
  | cons x rest ih =>
      intro hx
      rw [isFlatElems] at hx
      simp only [Bool.and_eq_true] at hx
      have hxl : isList x = false := by simpa using hx.1.1
      simp [List.any_cons, hxl, ih hx.2]

mutual
theorem flatten_of_isFlat : ∀ v : Value, isFlat v = true →
    flatten_nested_lists_recursively v = v
  | .vnull, _ => rfl
  | .vbool _, _ => rfl
  | .vint _, _ => rfl
  | .vfloat _, _ => rfl
  | .vstr _, _ => rfl
  | .vbytes _, _ => rfl
  | .voidv _, _ => rfl
  | .vdatetime _, _ => rfl
  | .vdate _, _ => rfl
  | .vdict kvs, h => by
      rw [flatten_nested_lists_recursively,
        flattenKVs_of_isFlat kvs (by simpa [isFlat] using h)]
  | .vlist xs, h => by
      have hx : isFlatElems xs = true := by simpa [isFlat] using h
      have hnone : xs.any isList = false := any_isList_of_isFlatElems xs hx
      rw [flatten_nested_lists_recursively, if_neg (by simp [hnone]),
        flattenEach_of_isFlat xs hx]

theorem flattenKVs_of_isFlat : ∀ kvs : List (String × Value),
    isFlatKVs kvs = true → flattenKVs kvs = kvs
  | [], _ => rfl
  | (k, v) :: rest, h => by
      rw [isFlatKVs] at h
      simp only [Bool.and_eq_true] at h
      rw [flattenKVs, flatten_of_isFlat v h.1, flattenKVs_of_isFlat rest h.2]

theorem flattenEach_of_isFlat : ∀ xs : List Value,
    isFlatElems xs = true → flattenEach xs = xs
  | [], _ => rfl
  | x :: rest, h => by
      rw [isFlatElems] at h
      simp only [Bool.and_eq_true] at h
      rw [flattenEach, flatten_of_isFlat x h.1.2, flattenEach_of_isFlat rest h.2]
end

theorem isList_flatten (v : Value) :
    isList (flatten_nested_lists_recursively v) = isList v := by
  cases v <;> rfl

theorem isFlatElems_append (a b : List Value) :
    isFlatElems (a ++ b) = (isFlatElems a && isFlatElems b) := by
  induction a with
  | nil => simp [isFlatElems]
  | cons x rest ih => simp [isFlatElems, ih, Bool.and_assoc]

mutual
theorem isFlat_flatten_of_nestLe2 : ∀ v : Value, nestLe2 v = true →
    isFlat (flatten_nested_lists_recursively v) = true
  | .vnull, _ => rfl
  | .vbool _, _ => rfl
  | .vint _, _ => rfl
  | .vfloat _, _ => rfl
  | .vstr _, _ => rfl
  | .vbytes _, _ => rfl
  | .voidv _, _ => rfl
  | .vdatetime _, _ => rfl
  | .vdate _, _ => rfl
  | .vdict kvs, h => by
      rw [flatten_nested_lists_recursively, isFlat]
      exact isFlatKVs_flatten_of_nestLe2 kvs (by simpa [nestLe2] using h)
  | .vlist xs, h => by
      have hx : nestLe2Elems xs = true := by simpa [nestLe2] using h
      by_cases hc : xs.any isList = true
      · rw [flatten_nested_lists_recursively, if_pos hc, isFlat]
        exact isFlatElems_flattenCollapsed_of_nestLe2 xs hx
      · rw [flatten_nested_lists_recursively, if_neg hc, isFlat]
        exact isFlatElems_flattenEach_of_nonList xs hx
          (by simpa using hc)

theorem isFlatKVs_flatten_of_nestLe2 : ∀ kvs : List (String × Value),
    nestLe2KVs kvs = true → isFlatKVs (flattenKVs kvs) = true
  | [], _ => rfl
  | (k, v) :: rest, h => by
      rw [nestLe2KVs] at h
      simp only [Bool.and_eq_true] at h
      rw [flattenKVs, isFlatKVs]
      simp only [Bool.and_eq_true]
      exact ⟨isFlat_flatten_of_nestLe2 v h.1,
        isFlatKVs_flatten_of_nestLe2 rest h.2⟩

theorem isFlatElems_flattenEach_of_nonList : ∀ xs : List Value,
    nestLe2Elems xs = true → xs.any isList = false →
    isFlatElems (flattenEach xs) = true
  | [], _, _ => rfl
  | x :: rest, h, hany => by
      cases x <;>
        first
        | (simp [List.any_cons, isList] at hany; done)
        | (simp only [nestLe2Elems, Bool.and_eq_true] at h
           simp only [List.any_cons, Bool.or_eq_false_iff] at hany
           rw [flattenEach, isFlatElems]
           simp only [Bool.and_eq_true]
           exact ⟨⟨by rw [isList_flatten]; rfl,
             isFlat_flatten_of_nestLe2 _ h.1⟩,
             isFlatElems_flattenEach_of_nonList rest h.2 hany.2⟩)

theorem isFlatElems_flattenCollapsed_of_nestLe2 : ∀ xs : List Value,
    nestLe2Elems xs = true → isFlatElems (flattenCollapsed xs) = true
  | [], _ => rfl
  | x :: rest, h => by
      cases x <;>
        first
        | (simp only [nestLe2Elems, Bool.and_eq_true] at h
           rw [flattenCollapsed, isFlatElems_append]
           simp only [Bool.and_eq_true]
           exact ⟨isFlatElems_flattenEach_of_inner _ h.1,
             isFlatElems_flattenCollapsed_of_nestLe2 rest h.2⟩)
        | (simp only [nestLe2Elems, Bool.and_eq_true] at h
           simp only [flattenCollapsed, isFlatElems, Bool.and_eq_true]
           exact ⟨⟨by rw [isList_flatten]; rfl,
             isFlat_flatten_of_nestLe2 _ h.1⟩,
             isFlatElems_flattenCollapsed_of_nestLe2 rest h.2⟩)


theorem isFlatElems_flattenEach_of_inner : ∀ ys : List Value,
    nestLe2Inner ys = true → isFlatElems (flattenEach ys) = true
  | [], _ => rfl
  | y :: rest, h => by
      rw [nestLe2Inner] at h
      simp only [Bool.and_eq_true] at h
      have hyl : isList y = false := by simpa using h.1.1
      rw [flattenEach, isFlatElems]
      simp only [Bool.and_eq_true]
      exact ⟨⟨by simp [isList_flatten, hyl],
        isFlat_flatten_of_nestLe2 y h.1.2⟩,
        isFlatElems_flattenEach_of_inner rest h.2⟩
end

/-- Result type of extract_paths: the defaultdict(set) mapping a dotted
field path to the set of observed type tags.  Insertion order of paths is
kept as in a Python dict; each tag list is duplicate-free, only tag
membership is ever observed downstream (the schema builder sorts them). -/
abbrev PathMap := List (String × List String)

def getTags (m : PathMap) (p : String) : List String :=
  (lookupKey m p).getD []

def hasPath (m : PathMap) (p : String) : Bool :=
  (lookupKey m p).isSome

/-- Python paths[p].add(t) on a defaultdict(set): a missing entry is
created holding just t, an existing entry gains t if absent. -/
def addTag : PathMap → String → String → PathMap
  | [], p, t => [(p, [t])]
  | (q, ts) :: rest, p, t =>
      if q = p then (q, if t ∈ ts then ts else ts ++ [t]) :: rest
      else (q, ts) :: addTag rest p t

/-- Python paths[p].update(ts). -/
def addTags (m : PathMap) (p : String) (ts : List String) : PathMap :=
  ts.foldl (fun acc t => addTag acc p t) m

/-- The merge loop for p, t in sub_paths.items(): paths[p].update(t). -/
def mergeInto : PathMap → PathMap → PathMap
  | m, [] => m
  | m, (p, ts) :: rest => mergeInto (addTags m p ts) rest

/-- Python f-string building the new dotted path. -/
def joinPath (cur k : String) : String :=
  if cur = "" then k else cur ++ "." ++ k

mutual
/-- Python extract_paths(doc, current_path): on a dict, for every key k
with value v the tag of v is recorded at the joined path and the paths
extracted from v under the joined path are merged in; on a list, every
element is processed with the current path unchanged and merged; any
other value contributes nothing.  The sequential accumulation into the
local defaultdict is modelled by the acc parameter of the two helpers. -/
def extract_paths : Value → String → PathMap
  | .vdict kvs, cur => extractKVs kvs cur []
  | .vlist xs, cur => extractElems xs cur []
  | _, _ => []

def extractKVs : List (String × Value) → String → PathMap → PathMap
  | [], _, acc => acc
  | (k, v) :: rest, cur, acc =>
      extractKVs rest cur
        (mergeInto (addTag acc (joinPath cur k) (type_name v))
          (extract_paths v (joinPath cur k)))

def extractElems : List Value → String → PathMap → PathMap
  | [], _, acc => acc
  | v :: rest, cur, acc =>
      extractElems rest cur (mergeInto acc (extract_paths v cur))
end

theorem lookupKey_mem {α : Type} :
    ∀ (m : List (String × α)) (q : String) (v : α),
    lookupKey m q = some v → (q, v) ∈ m := by
  intro m
  induction m with
  | nil => intro q v h; simp [lookupKey] at h
  | cons e rest ih =>
    obtain ⟨k, w⟩ := e
    intro q v h
    rw [lookupKey] at h
    by_cases hq : q = k
    · rw [if_pos hq] at h
      subst hq
      simp at h
      simp [h]
    · rw [if_neg hq] at h
      simp [ih q v h]

theorem getTags_cons (q2 : String) (ts : List String) (rest : PathMap)
    (q : String) :
    getTags ((q2, ts) :: rest) q = if q = q2 then ts else getTags rest q := by
  by_cases hq : q = q2 <;> simp [getTags, lookupKey, hq]

theorem hasPath_cons (q2 : String) (ts : List String) (rest : PathMap)
    (q : String) :
    hasPath ((q2, ts) :: rest) q = true ↔ q = q2 ∨ hasPath rest q = true := by
  by_cases hq : q = q2 <;> simp [hasPath, lookupKey, hq]

theorem mem_ins_iff (ts : List String) (t u : String) :
    u ∈ (if t ∈ ts then ts else ts ++ [t]) ↔ u ∈ ts ∨ u = t := by
  by_cases ht : t ∈ ts
  · rw [if_pos ht]
    exact ⟨Or.inl, fun h => h.elim id (fun hu => hu ▸ ht)⟩
  · rw [if_neg ht]
    simp [List.mem_append]

theorem mem_getTags_addTag (m : PathMap) (p t u q : String) :
    u ∈ getTags (addTag m p t) q ↔ u ∈ getTags m q ∨ (q = p ∧ u = t) := by
  induction m with
  | nil =>
    by_cases hq : q = p
    · subst hq
      rw [addTag, getTags_cons, if_pos rfl]
      simp [getTags, lookupKey]
    · rw [addTag, getTags_cons, if_neg hq]
      simp [getTags, lookupKey, hq]
  | cons e rest ih =>
    obtain ⟨q2, ts⟩ := e
    rw [addTag]
    by_cases h2 : q2 = p
    · subst h2
      rw [if_pos rfl, getTags_cons, getTags_cons]
      by_cases hq : q = q2
      · rw [if_pos hq, if_pos hq, mem_ins_iff]
        subst hq
        tauto
      · rw [if_neg hq, if_neg hq]
        have : ¬ (q = q2 ∧ u = t) := fun hh => hq hh.1
        tauto
    · rw [if_neg h2, getTags_cons, getTags_cons]
      by_cases hq : q = q2
      · rw [if_pos hq, if_pos hq]
        have : ¬ (q = p) := fun hh => h2 (hq ▸ hh ▸ rfl)
        tauto
      · rw [if_neg hq, if_neg hq, ih]

theorem hasPath_addTag (m : PathMap) (p t q : String) :
    hasPath (addTag m p t) q = true ↔ hasPath m q = true ∨ q = p := by
  induction m with
  | nil =>
    by_cases hq : q = p <;> simp [addTag, hasPath, lookupKey, hq]
  | cons e rest ih =>
    obtain ⟨q2, ts⟩ := e
    rw [addTag]
    by_cases h2 : q2 = p
    · subst h2
      rw [if_pos rfl, hasPath_cons, hasPath_cons]
      tauto
    · rw [if_neg h2, hasPath_cons, hasPath_cons, ih]
      have : ¬ (q = q2 ∧ q = p) := fun hh => h2 (hh.1 ▸ hh.2)
      tauto

theorem mem_getTags_addTags (m : PathMap) (p : String) (ts : List String)
    (u q : String) :
    u ∈ getTags (addTags m p ts) q ↔
      u ∈ getTags m q ∨ (q = p ∧ u ∈ ts) := by
  induction ts generalizing m with
  | nil => simp [addTags]
  | cons t rest ih =>
    have hstep : addTags m p (t :: rest) = addTags (addTag m p t) p rest := rfl
    rw [hstep, ih, mem_getTags_addTag]
    simp only [List.mem_cons]
    tauto

theorem hasPath_addTags (m : PathMap) (p : String) (ts : List String)
    (q : String) :
    hasPath (addTags m p ts) q = true ↔
      hasPath m q = true ∨ (q = p ∧ ts ≠ []) := by
  induction ts generalizing m with
  | nil => simp [addTags]
  | cons t rest ih =>
    have hstep : addTags m p (t :: rest) = addTags (addTag m p t) p rest := rfl
    rw [hstep, ih, hasPath_addTag]
    have : (t :: rest : List String) ≠ [] := by simp
    tauto

theorem mem_getTags_mergeInto (m s : PathMap) (u q : String) :
    u ∈ getTags (mergeInto m s) q ↔
      u ∈ getTags m q ∨ ∃ ls, (q, ls) ∈ s ∧ u ∈ ls := by
  induction s generalizing m with
  | nil => simp [mergeInto]
  | cons e rest ih =>
    obtain ⟨p, ts⟩ := e
    rw [mergeInto, ih, mem_getTags_addTags]
    constructor
    · rintro ((h | ⟨hq, hu⟩) | ⟨ls, hls, hu⟩)
      · exact Or.inl h
      · exact Or.inr ⟨ts, by rw [hq]; exact List.mem_cons_self _ _, hu⟩
      · exact Or.inr ⟨ls, List.mem_cons_of_mem _ hls, hu⟩
    · rintro (h | ⟨ls, hls, hu⟩)
      · exact Or.inl (Or.inl h)
      · rcases List.mem_cons.mp hls with heq | hmem
        · have hq : q = p := congrArg Prod.fst heq
          have hts : ls = ts := congrArg Prod.snd heq
          subst hts
          exact Or.inl (Or.inr ⟨hq, hu⟩)
        · exact Or.inr ⟨ls, hmem, hu⟩

theorem hasPath_mergeInto (m s : PathMap) (q : String) :
    hasPath (mergeInto m s) q = true ↔
      hasPath m q = true ∨ ∃ ls, (q, ls) ∈ s ∧ ls ≠ [] := by
  induction s generalizing m with
  | nil => simp [mergeInto]
  | cons e rest ih =>
    obtain ⟨p, ts⟩ := e
    rw [mergeInto, ih, hasPath_addTags]
    constructor
    · rintro ((h | ⟨hq, hts⟩) | ⟨ls, hls, hne⟩)
      · exact Or.inl h
      · exact Or.inr ⟨ts, by rw [hq]; exact List.mem_cons_self _ _, hts⟩
      · exact Or.inr ⟨ls, List.mem_cons_of_mem _ hls, hne⟩
    · rintro (h | ⟨ls, hls, hne⟩)
      · exact Or.inl (Or.inl h)
      · rcases List.mem_cons.mp hls with heq | hmem
        · have hq : q = p := congrArg Prod.fst heq
          have hts : ls = ts := congrArg Prod.snd heq
          subst hts
          exact Or.inl (Or.inr ⟨hq, hne⟩)
        · exact Or.inr ⟨ls, hmem, hne⟩

mutual
/-- The set of paths reachable by dict traversal plus list-any-element
traversal, each list element inheriting the parent path unchanged: the
specification-level description of which entries extract_paths produces. -/
def reach_paths : Value → String → List String
  | .vdict kvs, cur => reachKVs kvs cur
  | .vlist xs, cur => reachElems xs cur
  | _, _ => []

def reachKVs : List (String × Value) → String → List String
  | [], _ => []
  | (k, v) :: rest, cur =>
      joinPath cur k ::
        (reach_paths v (joinPath cur k) ++ reachKVs rest cur)

def reachElems : List Value → String → List String
  | [], _ => []
  | v :: rest, cur => reach_paths v cur ++ reachElems rest cur
end

mutual
/-- The traversal described by the original claim for C1: recurse into
mappings, and into the first element of a non-empty list when that first
element is a mapping, appending the two-character suffix to the path. -/
def claim_paths : Value → String → List String
  | .vdict kvs, cur => claimKVs kvs cur
  | _, _ => []

def claimKVs : List (String × Value) → String → List String
  | [], _ => []
  | (k, v) :: rest, cur =>
      joinPath cur k :: (claimSub v (joinPath cur k) ++ claimKVs rest cur)

def claimSub : Value → String → List String
  | .vdict kvs, np => claimKVs kvs np
  | .vlist (.vdict kvs :: _), np => claimKVs kvs (np ++ "[]")
  | _, _ => []
end

/-- Every tag set stored in the map is non-empty; extract_paths only ever
creates entries through addTag, so its results satisfy this. -/
def goodMap (m : PathMap) : Bool := m.all (fun e => decide (e.2 ≠ []))

/-- The paths of the map are pairwise distinct, as in a Python dict. -/
def uniqKeys (m : PathMap) : Prop := (m.map Prod.fst).Nodup

theorem goodMap_addTag (m : PathMap) (p t : String)
    (h : goodMap m = true) : goodMap (addTag m p t) = true := by
  induction m with
  | nil => simp [addTag, goodMap]
  | cons e rest ih =>
    obtain ⟨q, ts⟩ := e
    simp only [goodMap, List.all_cons, Bool.and_eq_true, decide_eq_true_eq] at h
    rw [addTag]
    by_cases h2 : q = p
    · rw [if_pos h2]
      simp only [goodMap, List.all_cons, Bool.and_eq_true, decide_eq_true_eq]
      refine ⟨?_, by simpa [goodMap] using h.2⟩
      by_cases ht : t ∈ ts <;> simp [ht, h.1]
    · rw [if_neg h2]
      simp only [goodMap, List.all_cons, Bool.and_eq_true, decide_eq_true_eq]
      exact ⟨h.1, by simpa [goodMap] using ih (by simpa [goodMap] using h.2)⟩

theorem keys_addTag (m : PathMap) (p t : String) :
    (addTag m p t).map Prod.fst =
      if p ∈ m.map Prod.fst then m.map Prod.fst
      else m.map Prod.fst ++ [p] := by
  induction m with
  | nil => simp [addTag]
  | cons e rest ih =>
    obtain ⟨q, ts⟩ := e
    rw [addTag]
    by_cases h2 : q = p
    · subst h2
      rw [if_pos rfl]
      simp [List.mem_cons]
    · rw [if_neg h2]
      have hne : ¬ p = q := fun hh => h2 hh.symm
      by_cases hp : p ∈ rest.map Prod.fst
      · simp [List.mem_cons, hp, hne, ih]
      · simp [List.mem_cons, hp, hne, ih]

theorem uniqKeys_addTag (m : PathMap) (p t : String)
    (h : uniqKeys m) : uniqKeys (addTag m p t) := by
  unfold uniqKeys at *
  rw [keys_addTag]
  by_cases hp : p ∈ m.map Prod.fst
  · simpa [hp]
  · rw [if_neg hp]
    rw [List.nodup_append]
    refine ⟨h, List.nodup_singleton p, ?_⟩
    intro a ha hb
    simp only [List.mem_singleton] at hb
    subst hb
    exact hp ha

theorem goodMap_addTags (m : PathMap) (p : String) (ts : List String)
    (h : goodMap m = true) : goodMap (addTags m p ts) = true := by
  induction ts generalizing m with
  | nil => exact h
  | cons t rest ih => exact ih (addTag m p t) (goodMap_addTag m p t h)

theorem uniqKeys_addTags (m : PathMap) (p : String) (ts : List String)
    (h : uniqKeys m) : uniqKeys (addTags m p ts) := by
  induction ts generalizing m with
  | nil => exact h
  | cons t rest ih => exact ih (addTag m p t) (uniqKeys_addTag m p t h)

theorem goodMap_mergeInto (m s : PathMap) (h : goodMap m = true) :
    goodMap (mergeInto m s) = true := by
  induction s generalizing m with
  | nil => exact h
  | cons e rest ih =>
    obtain ⟨p, ts⟩ := e
    exact ih (addTags m p ts) (goodMap_addTags m p ts h)

theorem uniqKeys_mergeInto (m s : PathMap) (h : uniqKeys m) :
    uniqKeys (mergeInto m s) := by
  induction s generalizing m with
  | nil => exact h
  | cons e rest ih =>
    obtain ⟨p, ts⟩ := e
    exact ih (addTags m p ts) (uniqKeys_addTags m p ts h)

theorem extractKVs_invariants (pairs : List (String × Value)) (cur : String)
    (acc : PathMap) (hg : goodMap acc = true) (hu : uniqKeys acc) :
    goodMap (extractKVs pairs cur acc) = true ∧
      uniqKeys (extractKVs pairs cur acc) := by
  induction pairs generalizing acc with
  | nil => exact ⟨hg, hu⟩
  | cons e rest ih =>
    obtain ⟨k, v⟩ := e
    rw [extractKVs]
    exact ih _
      (goodMap_mergeInto _ _ (goodMap_addTag _ _ _ hg))
      (uniqKeys_mergeInto _ _ (uniqKeys_addTag _ _ _ hu))

theorem extractElems_invariants (xs : List Value) (cur : String)
    (acc : PathMap) (hg : goodMap acc = true) (hu : uniqKeys acc) :
    goodMap (extractElems xs cur acc) = true ∧
      uniqKeys (extractElems xs cur acc) := by
  induction xs generalizing acc with
  | nil => exact ⟨hg, hu⟩
  | cons x rest ih =>
    rw [extractElems]
    exact ih _ (goodMap_mergeInto _ _ hg) (uniqKeys_mergeInto _ _ hu)

theorem extract_paths_invariants (v : Value) (cur : String) :
    goodMap (extract_paths v cur) = true ∧ uniqKeys (extract_paths v cur) := by
  cases v <;>
    first
    | exact ⟨rfl, List.nodup_nil⟩
    | (rw [extract_paths]
       first
       | exact extractKVs_invariants _ _ [] rfl List.nodup_nil
       | exact extractElems_invariants _ _ [] rfl List.nodup_nil)

theorem lookupKey_isSome_of_mem {α : Type} (m : List (String × α))
    (q : String) (v : α) (h : (q, v) ∈ m) :
    (lookupKey m q).isSome = true := by
  induction m with
  | nil => simp at h
  | cons e rest ih =>
    obtain ⟨k, w⟩ := e
    rw [lookupKey]
    by_cases hq : q = k
    · simp [hq]
    · rw [if_neg hq]
      rcases List.mem_cons.mp h with heq | hmem
      · exact absurd (congrArg Prod.fst heq) hq
      · exact ih hmem

theorem hasPath_iff_exists (m : PathMap) (q : String)
    (hg : goodMap m = true) :
    hasPath m q = true ↔ ∃ ls, (q, ls) ∈ m ∧ ls ≠ [] := by
  constructor
  · intro h
    rw [hasPath] at h
    obtain ⟨ts, hts⟩ := Option.isSome_iff_exists.mp h
    refine ⟨ts, lookupKey_mem m q ts hts, ?_⟩
    have := List.all_eq_true.mp hg _ (lookupKey_mem m q ts hts)
    simpa using this
  · rintro ⟨ls, hmem, _⟩
    exact lookupKey_isSome_of_mem m q ls hmem

theorem lookupKey_eq_of_mem_uniq (m : PathMap) (q : String) (ls : List String)
    (hu : uniqKeys m) (h : (q, ls) ∈ m) : lookupKey m q = some ls := by
  induction m with
  | nil => simp at h
  | cons e rest ih =>
    obtain ⟨k, w⟩ := e
    unfold uniqKeys at hu
    simp only [List.map_cons, List.nodup_cons] at hu
    rw [lookupKey]
    rcases List.mem_cons.mp h with heq | hmem
    · have hq : q = k := congrArg Prod.fst heq
      have hw : ls = w := congrArg Prod.snd heq
      rw [if_pos hq, hw]
    · by_cases hq : q = k
      · exfalso
        apply hu.1
        rw [← hq]
        exact List.mem_map_of_mem Prod.fst hmem
      · rw [if_neg hq]
        exact ih hu.2 hmem

theorem mem_getTags_iff_exists (m : PathMap) (u q : String)
    (hu : uniqKeys m) :
    u ∈ getTags m q ↔ ∃ ls, (q, ls) ∈ m ∧ u ∈ ls := by
  constructor
  · intro h
    rw [getTags] at h
    cases hl : lookupKey m q with
    | none => rw [hl] at h; simp at h
    | some ts =>
        rw [hl] at h
        exact ⟨ts, lookupKey_mem m q ts hl, by simpa using h⟩
  · rintro ⟨ls, hmem, hin⟩
    rw [getTags, lookupKey_eq_of_mem_uniq m q ls hu hmem]
    simpa

mutual
theorem hasPath_extract : ∀ (v : Value) (cur p : String),
    hasPath (extract_paths v cur) p = true ↔ p ∈ reach_paths v cur
  | .vdict kvs, cur, p => by
      rw [extract_paths, reach_paths]
      rw [hasPath_extractKVs kvs cur [] p]
      simp [hasPath, lookupKey]
  | .vlist xs, cur, p => by
      rw [extract_paths, reach_paths]
      rw [hasPath_extractElems xs cur [] p]
      simp [hasPath, lookupKey]
  | .vnull, cur, p => by simp [extract_paths, reach_paths, hasPath, lookupKey]
  | .vbool _, cur, p => by simp [extract_paths, reach_paths, hasPath, lookupKey]
  | .vint _, cur, p => by simp [extract_paths, reach_paths, hasPath, lookupKey]
  | .vfloat _, cur, p => by simp [extract_paths, reach_paths, hasPath, lookupKey]
  | .vstr _, cur, p => by simp [extract_paths, reach_paths, hasPath, lookupKey]
  | .vbytes _, cur, p => by simp [extract_paths, reach_paths, hasPath, lookupKey]
  | .voidv _, cur, p => by simp [extract_paths, reach_paths, hasPath, lookupKey]
  | .vdatetime _, cur, p => by
      simp [extract_paths, reach_paths, hasPath, lookupKey]
  | .vdate _, cur, p => by simp [extract_paths, reach_paths, hasPath, lookupKey]

theorem hasPath_extractKVs : ∀ (pairs : List (String × Value)) (cur : String)
    (acc : PathMap) (p : String),
    hasPath (extractKVs pairs cur acc) p = true ↔
      hasPath acc p = true ∨ p ∈ reachKVs pairs cur
  | [], cur, acc, p => by simp [extractKVs, reachKVs]
  | (k, v) :: rest, cur, acc, p => by
      rw [extractKVs, reachKVs]
      rw [hasPath_extractKVs rest cur _ p]
      rw [hasPath_mergeInto, hasPath_addTag]
      have hconv : (∃ ls, (p, ls) ∈ extract_paths v (joinPath cur k) ∧
          ls ≠ []) ↔ p ∈ reach_paths v (joinPath cur k) := by
        rw [← hasPath_iff_exists _ _ (extract_paths_invariants v _).1]
        exact hasPath_extract v (joinPath cur k) p
      rw [hconv]
      simp only [List.mem_cons, List.mem_append]
      tauto

theorem hasPath_extractElems : ∀ (xs : List Value) (cur : String)
    (acc : PathMap) (p : String),
    hasPath (extractElems xs cur acc) p = true ↔
      hasPath acc p = true ∨ p ∈ reachElems xs cur
  | [], cur, acc, p => by simp [extractElems, reachElems]
  | x :: rest, cur, acc, p => by
      rw [extractElems, reachElems]
      rw [hasPath_extractElems rest cur _ p]
      rw [hasPath_mergeInto]
      have hconv : (∃ ls, (p, ls) ∈ extract_paths x cur ∧ ls ≠ []) ↔
          p ∈ reach_paths x cur := by
        rw [← hasPath_iff_exists _ _ (extract_paths_invariants x _).1]
        exact hasPath_extract x cur p
      rw [hconv]
      simp only [List.mem_append]
      tauto
end

/-- Test whether a dotted path contains a dot at all. -/
def hasDot (p : String) : Bool := p.data.any (fun c => c = '.')

/-- The parent of a dotted path: everything before the last dot (empty
when there is no dot). -/
def parentOfPath (p : String) : String :=
  String.mk (((p.data.reverse.dropWhile (fun c => !(c = '.'))).drop 1).reverse)

mutual
/-- No key of any mapping anywhere in the value contains a dot; dotted
path identity is only meaningful for such documents. -/
def noDotKeys : Value → Bool
  | .vdict kvs => noDotKVs kvs
  | .vlist xs => noDotElems xs
  | _ => true

def noDotKVs : List (String × Value) → Bool
  | [] => true
  | (k, v) :: rest =>
      ((!k.data.any (fun c => c = '.')) && noDotKeys v) && noDotKVs rest

def noDotElems : List Value → Bool
  | [] => true
  | x :: rest => noDotKeys x && noDotElems rest
end

theorem dropWhile_append_all {p : Char → Bool} (l r : List Char)
    (h : ∀ c ∈ l, p c = true) :
    List.dropWhile p (l ++ r) = List.dropWhile p r := by
  induction l with
  | nil => rfl
  | cons c rest ih =>
    rw [List.cons_append, List.dropWhile_cons]
    rw [h c (by simp)]
    simp only [if_true]
    exact ih (fun x hx => h x (by simp [hx]))

theorem parentOfPath_join (cur k : String)
    (hk : ∀ c ∈ k.data, ¬ c = '.') :
    parentOfPath (cur ++ "." ++ k) = cur := by
  have hdata : (cur ++ "." ++ k).data = cur.data ++ '.' :: k.data := by
    simp [String.data_append]
  rw [parentOfPath, hdata]
  rw [List.reverse_append]
  have : ('.' :: k.data).reverse = k.data.reverse ++ ['.'] := by
    simp
  rw [this, List.append_assoc]
  rw [dropWhile_append_all _ _
    (fun c hc => by simp [hk c (List.mem_reverse.mp hc)])]
  have hstep : List.dropWhile (fun c => !(c = '.'))
      (['.'] ++ cur.data.reverse) = '.' :: cur.data.reverse := by
    rw [List.singleton_append, List.dropWhile_cons]
    simp
  rw [hstep]
  simp only [List.drop_succ_cons, List.drop_zero, List.reverse_reverse]

theorem hasDot_join (cur k : String) :
    hasDot (cur ++ "." ++ k) = true := by
  have hdata : (cur ++ "." ++ k).data = cur.data ++ '.' :: k.data := by
    simp [String.data_append]
  rw [hasDot, hdata]
  simp

mutual
theorem reach_parent : ∀ (v : Value) (cur p : String),
    noDotKeys v = true → p ∈ reach_paths v cur → hasDot p = true →
    (parentOfPath p = cur ∧ cur ≠ "") ∨ parentOfPath p ∈ reach_paths v cur
  | .vdict kvs, cur, p => fun hnd hp hdot => by
      rw [reach_paths] at hp ⊢
      exact reachKVs_parent kvs cur p (by simpa [noDotKeys] using hnd) hp hdot
  | .vlist xs, cur, p => fun hnd hp hdot => by
      rw [reach_paths] at hp ⊢
      exact reachElems_parent xs cur p (by simpa [noDotKeys] using hnd) hp hdot
  | .vnull, cur, p => fun _ hp _ => by simp [reach_paths] at hp
  | .vbool _, cur, p => fun _ hp _ => by simp [reach_paths] at hp
  | .vint _, cur, p => fun _ hp _ => by simp [reach_paths] at hp
  | .vfloat _, cur, p => fun _ hp _ => by simp [reach_paths] at hp
  | .vstr _, cur, p => fun _ hp _ => by simp [reach_paths] at hp
  | .vbytes _, cur, p => fun _ hp _ => by simp [reach_paths] at hp
  | .voidv _, cur, p => fun _ hp _ => by simp [reach_paths] at hp
  | .vdatetime _, cur, p => fun _ hp _ => by simp [reach_paths] at hp
  | .vdate _, cur, p => fun _ hp _ => by simp [reach_paths] at hp

theorem reachKVs_parent : ∀ (pairs : List (String × Value)) (cur p : String),
    noDotKVs pairs = true → p ∈ reachKVs pairs cur → hasDot p = true →
    (parentOfPath p = cur ∧ cur ≠ "") ∨ parentOfPath p ∈ reachKVs pairs cur
  | [], cur, p => fun _ hp _ => by simp [reachKVs] at hp
  | (k, v) :: rest, cur, p => fun hnd hp hdot => by
      rw [noDotKVs] at hnd
      simp only [Bool.and_eq_true] at hnd
      have hkfree : ∀ c ∈ k.data, ¬ c = '.' := by
        intro c hc
        have := hnd.1.1
        simp only [Bool.not_eq_true'] at this
        intro hcdot
        have := List.any_eq_false.mp this c hc
        simp [hcdot] at this
      rw [reachKVs] at hp
      rcases List.mem_cons.mp hp with heq | hmem
      · subst heq
        by_cases hcur : cur = ""
        · subst hcur
          exfalso
          rw [joinPath, if_pos rfl] at hdot
          rw [hasDot] at hdot
          obtain ⟨c, hc, hcd⟩ := List.any_eq_true.mp hdot
          exact hkfree c hc (by simpa using hcd)
        · left
          rw [joinPath, if_neg hcur]
          exact ⟨parentOfPath_join cur k hkfree, hcur⟩
      · rcases List.mem_append.mp hmem with hsub | hrest
        · rcases reach_parent v (joinPath cur k) p hnd.1.2 hsub hdot with
            ⟨hpar, _⟩ | hin
          · right
            rw [reachKVs, hpar]
            exact List.mem_cons_self _ _
          · right
            rw [reachKVs]
            exact List.mem_cons_of_mem _ (List.mem_append.mpr (Or.inl hin))
        · rcases reachKVs_parent rest cur p hnd.2 hrest hdot with hleft | hin
          · exact Or.inl hleft
          · right
            rw [reachKVs]
            exact List.mem_cons_of_mem _ (List.mem_append.mpr (Or.inr hin))

theorem reachElems_parent : ∀ (xs : List Value) (cur p : String),
    noDotElems xs = true → p ∈ reachElems xs cur → hasDot p = true →
    (parentOfPath p = cur ∧ cur ≠ "") ∨ parentOfPath p ∈ reachElems xs cur
  | [], cur, p => fun _ hp _ => by simp [reachElems] at hp
  | x :: rest, cur, p => fun hnd hp hdot => by
      rw [noDotElems] at hnd
      simp only [Bool.and_eq_true] at hnd
      rw [reachElems] at hp
      rcases List.mem_append.mp hp with hsub | hrest
      · rcases reach_parent x cur p hnd.1 hsub hdot with hleft | hin
        · exact Or.inl hleft
        · right
          rw [reachElems]
          exact List.mem_append.mpr (Or.inl hin)
      · rcases reachElems_parent rest cur p hnd.2 hrest hdot with hleft | hin
        · exact Or.inl hleft
        · right
          rw [reachElems]
          exact List.mem_append.mpr (Or.inr hin)
end

/-- Python integer-literal test for int(s) on strings: an optional sign
followed by at least one digit (whitespace and underscore forms are not
modelled; only raise/no-raise behaviour matters downstream). -/
def isIntLiteral (s : String) : Bool :=
  match s.data with
  | [] => false
  | c :: rest =>
      if c = '-' || c = '+' then !rest.isEmpty && rest.all Char.isDigit
      else (c :: rest).all Char.isDigit

def digitsToNat (cs : List Char) : Nat :=
  cs.foldl (fun a c => 10 * a + (c.toNat - 48)) 0

def parseIntLiteral (s : String) : Int :=
  match s.data with
  | '-' :: rest => - (digitsToNat rest : Int)
  | '+' :: rest => (digitsToNat rest : Int)
  | cs => (digitsToNat cs : Int)

/-- Python built-in int(x) as applied to wrapper payloads: succeeds on
int, bool, float (an integral token here) and integer-literal strings;
raises, modelled as none, on anything else such as None, lists or
mappings. -/
def pyToInt : Value → Option Int
  | .vint n => some n
  | .vbool b => some (if b then 1 else 0)
  | .vfloat f => some f
  | .vstr s => if isIntLiteral s then some (parseIntLiteral s) else none
  | _ => none

/-- Python float(n) on an integer raises OverflowError when the value is
too large for a double: conversion fails for absolute values of at least
2^1024 (rounding at the very last representable step below that bound is
abstracted, float values being opaque integral tokens here). -/
def floatRepresentable (n : Int) : Bool := n.natAbs < 2 ^ 1024

/-- Python built-in float(x) on wrapper payloads; float values are opaque
integral tokens, so numeric strings are modelled by the integer-literal
parser (only raise/no-raise behaviour is relied on downstream).  An
integer of magnitude 2^1024 or more raises OverflowError, modelled as
none; a string of such magnitude does not raise — float on strings
overflows to an infinity instead — so string payloads stay total. -/
def pyToFloat : Value → Option Int
  | .vint n => if floatRepresentable n then some n else none
  | .vbool b => some (if b then 1 else 0)
  | .vfloat f => some f
  | .vstr s => if isIntLiteral s then some (parseIntLiteral s) else none
  | _ => none

/-- Python v / 1000 on the date wrapper payload: defined for numbers
(int, float, bool), raising otherwise. -/
def pyDateMillis : Value → Option Int
  | .vint n => some n
  | .vbool b => some (if b then 1 else 0)
  | .vfloat f => some f
  | _ => none

/-- Abstraction of the ISO rendering datetime.isoformat() produces for an
in-range epoch value.  Claims depend only on this being a string computed
from the payload. -/
def isoOfEpochMillis (n : Int) : String := "epoch-" ++ toString n

/-- Epoch milliseconds on which datetime.fromtimestamp(ms / 1000) is
defined: the supported datetime range runs from year 1 to year 9999,
that is epoch seconds -62135596800 to 253402300799 (the local-time
offset applied at the exact boundary, and the platform dependence of the
limits, are abstracted).  Outside this range fromtimestamp raises
uncaught — the try/except of the source guards only the base64 branch —
and for astronomically large integers the true division by 1000 itself
raises OverflowError even earlier, which this range check subsumes. -/
def epochMillisInRange (n : Int) : Bool :=
  (-62135596800000 ≤ n) && (n ≤ 253402300799999)

/-- Python datetime.fromtimestamp(ms / 1000).isoformat(): an ISO string
for epoch values in the supported datetime range, a raise (none)
otherwise. -/
def pyFromTimestampMillis (n : Int) : Option String :=
  if epochMillisInRange n then some (isoOfEpochMillis n) else none

/-- The whole conversion the date-wrapper branch performs on its payload:
the numeric division v / 1000 (raising on non-numbers) followed by
datetime.fromtimestamp (raising outside the supported range). -/
def pyDateConvert (p : Value) : Option String :=
  (pyDateMillis p).bind pyFromTimestampMillis

mutual
/-- Python _safe_value: decode BSON wrapper mappings in priority order
(numberInt, numberDouble, numberLong, date), otherwise normalize mappings
and lists recursively, render ObjectId, bytes, datetime and date values
as strings, and pass JSON primitives through.  A result of none models an
uncaught exception: int(None) on a malformed wrapper payload, float on an
integer too large for a double, or fromtimestamp on an epoch outside the
supported datetime range.  The final repr fallback of the source is
unreachable here because Value enumerates exactly the runtime kinds the
service handles. -/
def safe_value : Value → Option Value
  | .vdict kvs =>
      match lookupKey kvs "$numberInt" with
      | some payload => (pyToInt payload).map Value.vint
      | none =>
        match lookupKey kvs "$numberDouble" with
        | some payload => (pyToFloat payload).map Value.vfloat
        | none =>
          match lookupKey kvs "$numberLong" with
          | some payload => (pyToInt payload).map Value.vint
          | none =>
            match lookupKey kvs "$date" with
            | some payload => (pyDateConvert payload).map Value.vstr
            | none => (safeKVs kvs).map Value.vdict
  | .voidv bs => some (.vstr (hexEncode bs))
  | .vbytes bs => some (.vstr (base64Encode bs))
  | .vdatetime iso => some (.vstr iso)
  | .vdate iso => some (.vstr iso)
  | .vlist xs => (safeElems xs).map Value.vlist
  | .vstr s => some (.vstr s)
  | .vint n => some (.vint n)
  | .vfloat f => some (.vfloat f)
  | .vbool b => some (.vbool b)
  | .vnull => some .vnull

def safeKVs : List (String × Value) → Option (List (String × Value))
  | [] => some []
  | (k, v) :: rest =>
      match safe_value v with
      | none => none
      | some w =>
        match safeKVs rest with
        | none => none
        | some ws => some ((k, w) :: ws)

def safeElems : List Value → Option (List Value)
  | [] => some []
  | x :: rest =>
      match safe_value x with
      | none => none
      | some w =>
        match safeElems rest with
        | none => none
        | some ws => some (w :: ws)
end

mutual
/-- JSON-representable values: no ObjectId, bytes, datetime or date
values remain anywhere. -/
def jsonSafe : Value → Bool
  | .vdict kvs => jsonSafeKVs kvs
  | .vlist xs => jsonSafeElems xs
  | .voidv _ => false
  | .vbytes _ => false
  | .vdatetime _ => false
  | .vdate _ => false
  | _ => true

def jsonSafeKVs : List (String × Value) → Bool
  | [] => true
  | (_, v) :: rest => jsonSafe v && jsonSafeKVs rest

def jsonSafeElems : List Value → Bool
  | [] => true
  | x :: rest => jsonSafe x && jsonSafeElems rest
end

mutual
/-- Wrapper payload well-formedness: whenever a mapping carries one of
the recognized BSON wrapper keys, the payload must be of a kind and
magnitude the conversion chain accepts — including the float overflow
bound for the double wrapper and the supported datetime range for the
date wrapper; other values are checked recursively along exactly the
paths safe_value takes. -/
def wrappers_ok : Value → Bool
  | .vdict kvs =>
      match lookupKey kvs "$numberInt" with
      | some payload => (pyToInt payload).isSome
      | none =>
        match lookupKey kvs "$numberDouble" with
        | some payload => (pyToFloat payload).isSome
        | none =>
          match lookupKey kvs "$numberLong" with
          | some payload => (pyToInt payload).isSome
          | none =>
            match lookupKey kvs "$date" with
            | some payload => (pyDateConvert payload).isSome
            | none => wrappersKVs kvs
  | .vlist xs => wrappersElems xs
  | _ => true

def wrappersKVs : List (String × Value) → Bool
  | [] => true
  | (_, v) :: rest => wrappers_ok v && wrappersKVs rest

def wrappersElems : List Value → Bool
  | [] => true
  | x :: rest => wrappers_ok x && wrappersElems rest
end

mutual
theorem safe_value_total : ∀ v : Value, wrappers_ok v = true →
    ∃ j, safe_value v = some j ∧ jsonSafe j = true
  | .vnull, _ => ⟨.vnull, rfl, rfl⟩
  | .vbool b, _ => ⟨.vbool b, rfl, rfl⟩
  | .vint n, _ => ⟨.vint n, rfl, rfl⟩
  | .vfloat f, _ => ⟨.vfloat f, rfl, rfl⟩
  | .vstr s, _ => ⟨.vstr s, rfl, rfl⟩
  | .vbytes bs, _ => ⟨.vstr (base64Encode bs), rfl, rfl⟩
  | .voidv bs, _ => ⟨.vstr (hexEncode bs), rfl, rfl⟩
  | .vdatetime iso, _ => ⟨.vstr iso, rfl, rfl⟩
  | .vdate iso, _ => ⟨.vstr iso, rfl, rfl⟩
  | .vlist xs, h => by
      have hx : wrappersElems xs = true := by simpa [wrappers_ok] using h
      obtain ⟨l, hl, hj⟩ := safeElems_total xs hx
      exact ⟨.vlist l, by rw [safe_value, hl]; rfl, by simpa [jsonSafe] using hj⟩
  | .vdict kvs, h => by
      rw [wrappers_ok] at h
      rw [safe_value]
      cases hni : lookupKey kvs "$numberInt" with
      | some payload =>
          rw [hni] at h
          simp only [Option.isSome_iff_exists] at h
          obtain ⟨n, hn⟩ := h
          exact ⟨.vint n, by simp [hn], rfl⟩
      | none =>
        rw [hni] at h
        cases hnd : lookupKey kvs "$numberDouble" with
        | some payload =>
            rw [hnd] at h
            simp only [Option.isSome_iff_exists] at h
            obtain ⟨n, hn⟩ := h
            exact ⟨.vfloat n, by simp [hn], rfl⟩
        | none =>
          rw [hnd] at h
          cases hnl : lookupKey kvs "$numberLong" with
          | some payload =>
              rw [hnl] at h
              simp only [Option.isSome_iff_exists] at h
              obtain ⟨n, hn⟩ := h
              exact ⟨.vint n, by simp [hn], rfl⟩
          | none =>
            rw [hnl] at h
            cases hdt : lookupKey kvs "$date" with
            | some payload =>
                rw [hdt] at h
                simp only [Option.isSome_iff_exists] at h
                obtain ⟨iso, hn⟩ := h
                exact ⟨.vstr iso, by simp [hn], rfl⟩
            | none =>
              rw [hdt] at h
              obtain ⟨l, hl, hj⟩ := safeKVs_total kvs h
              exact ⟨.vdict l, by simp [hl], by simpa [jsonSafe] using hj⟩

theorem safeKVs_total : ∀ kvs : List (String × Value),
    wrappersKVs kvs = true →
    ∃ l, safeKVs kvs = some l ∧ jsonSafeKVs l = true
  | [], _ => ⟨[], rfl, rfl⟩
  | (k, v) :: rest, h => by
      rw [wrappersKVs] at h
      simp only [Bool.and_eq_true] at h
      obtain ⟨w, hw, hjw⟩ := safe_value_total v h.1
      obtain ⟨ws, hws, hjws⟩ := safeKVs_total rest h.2
      refine ⟨(k, w) :: ws, ?_, ?_⟩
      · rw [safeKVs, hw, hws]
      · rw [jsonSafeKVs]
        simp [hjw, hjws]

theorem safeElems_total : ∀ xs : List Value,
    wrappersElems xs = true →
    ∃ l, safeElems xs = some l ∧ jsonSafeElems l = true
  | [], _ => ⟨[], rfl, rfl⟩
  | x :: rest, h => by
      rw [wrappersElems] at h
      simp only [Bool.and_eq_true] at h
      obtain ⟨w, hw, hjw⟩ := safe_value_total x h.1
      obtain ⟨ws, hws, hjws⟩ := safeElems_total rest h.2
      refine ⟨w :: ws, ?_, ?_⟩
      · rw [safeElems, hw, hws]
      · rw [jsonSafeElems]
        simp [hjw, hjws]
end

/-- The date-wrapper branch raises on numeric payloads outside the
supported datetime range, for example an epoch of 10^18 milliseconds;
such payloads are therefore rejected by wrappers_ok as well. -/
theorem safe_value_date_out_of_range :
    (safe_value (.vdict [("$date", .vint (10 ^ 18))])).isSome = false ∧
    wrappers_ok (.vdict [("$date", .vint (10 ^ 18))]) = false :=
  ⟨rfl, rfl⟩

/-- The double-wrapper branch raises on integer payloads too large for a
double, for example 10^400; such payloads are rejected by wrappers_ok. -/
theorem safe_value_double_overflow :
    (safe_value (.vdict [("$numberDouble", .vint (10 ^ 400))])).isSome =
      false ∧
    wrappers_ok (.vdict [("$numberDouble", .vint (10 ^ 400))]) = false :=
  ⟨rfl, rfl⟩

/-- Test for a string value holding a valid ObjectId encoding. -/
def isValidOidStr : Value → Bool
  | .vstr s => ObjectId_is_valid s
  | _ => false

/-- Conversion applied to each member of an $in list under _id: valid
ObjectId strings become ObjectId values, everything else is kept as is. -/
def convMembers : List Value → List Value
  | [] => []
  | .vstr s :: rest =>
      (if ObjectId_is_valid s then oidOfString s else .vstr s) :: convMembers rest
  | m :: rest => m :: convMembers rest

mutual
/-- Python normalize_objectid, modelled as a pure transform (the source
mutates its argument in place and returns None; over tree values that is
this function).  In every mapping, a binding of the literal key _id whose
value is a valid ObjectId string is rewritten to the ObjectId; an _id
binding whose value is a mapping carrying a list under $in has the valid
string members of that list rewritten, and the other bindings of that
mapping are not visited; any other _id value is walked recursively, as is
every non-_id value; list items that are mappings or lists are walked and
other items are untouched (on scalars the walk is the identity, as here). -/
def normalize_objectid : Value → Value
  | .vdict kvs => .vdict (normKVs kvs)
  | .vlist xs => .vlist (normElems xs)
  | v => v

def normKVs : List (String × Value) → List (String × Value)
  | [] => []
  | (k, v) :: rest =>
      (k, if k = "_id" then normIdValue v else normalize_objectid v) ::
        normKVs rest

def normIdValue : Value → Value
  | .vstr s => if ObjectId_is_valid s then oidOfString s else .vstr s
  | .vdict ivs =>
      match lookupKey ivs "$in" with
      | some (.vlist ms) => .vdict (setKey ivs "$in" (.vlist (convMembers ms)))
      | _ => .vdict (normKVs ivs)
  | .vlist xs => .vlist (normElems xs)
  | v => v

def normElems : List Value → List Value
  | [] => []
  | x :: rest => normalize_objectid x :: normElems rest
end

mutual
/-- Python convert_objectids: recursively convert every ObjectId in a
result value to its string form. -/
def convert_objectids : Value → Value
  | .vlist xs => .vlist (convObjElems xs)
  | .vdict kvs => .vdict (convObjKVs kvs)
  | .voidv bs => .vstr (hexEncode bs)
  | v => v

def convObjElems : List Value → List Value
  | [] => []
  | x :: rest => convert_objectids x :: convObjElems rest

def convObjKVs : List (String × Value) → List (String × Value)
  | [] => []
  | (k, v) :: rest => (k, convert_objectids v) :: convObjKVs rest
end

mutual
/-- Any ObjectId value left anywhere in a result. -/
def hasOid : Value → Bool
  | .voidv _ => true
  | .vlist xs => hasOidElems xs
  | .vdict kvs => hasOidKVs kvs
  | _ => false

def hasOidElems : List Value → Bool
  | [] => false
  | x :: rest => hasOid x || hasOidElems rest

def hasOidKVs : List (String × Value) → Bool
  | [] => false
  | (_, v) :: rest => hasOid v || hasOidKVs rest
end

mutual
theorem hasOid_convert : ∀ v : Value, hasOid (convert_objectids v) = false
  | .vnull => rfl
  | .vbool _ => rfl
  | .vint _ => rfl
  | .vfloat _ => rfl
  | .vstr _ => rfl
  | .vbytes _ => rfl
  | .voidv _ => rfl
  | .vdatetime _ => rfl
  | .vdate _ => rfl
  | .vlist xs => by
      rw [convert_objectids, hasOid]
      exact hasOidElems_convert xs
  | .vdict kvs => by
      rw [convert_objectids, hasOid]
      exact hasOidKVs_convert kvs

theorem hasOidElems_convert : ∀ xs : List Value,
    hasOidElems (convObjElems xs) = false
  | [] => rfl
  | x :: rest => by
      rw [convObjElems, hasOidElems]
      simp [hasOid_convert x, hasOidElems_convert rest]

theorem hasOidKVs_convert : ∀ kvs : List (String × Value),
    hasOidKVs (convObjKVs kvs) = false
  | [] => rfl
  | (k, v) :: rest => by
      rw [convObjKVs, hasOidKVs]
      simp [hasOid_convert v, hasOidKVs_convert rest]
end

mutual
/-- Full absence of raw identifier strings: in every mapping reachable by
unrestricted recursion, no binding of the literal key _id holds a valid
ObjectId string.  This is the postcondition the original claim asserts
for the rewriting pass. -/
def noRawIdStrings : Value → Bool
  | .vdict kvs => noRawIdKVs kvs
  | .vlist xs => noRawIdElems xs
  | _ => true

def noRawIdKVs : List (String × Value) → Bool
  | [] => true
  | (k, v) :: rest =>
      ((!(k = "_id" && isValidOidStr v)) && noRawIdStrings v) && noRawIdKVs rest

def noRawIdElems : List Value → Bool
  | [] => true
  | x :: rest => noRawIdStrings x && noRawIdElems rest
end

mutual
/-- Absence of raw identifier strings along exactly the paths the
rewriting pass visits: the bindings of an _id-keyed $in-filter mapping
other than the member list itself are exempt, because the pass does not
enter them. -/
def idsNormalized : Value → Bool
  | .vdict kvs => idsNormKVs kvs
  | .vlist xs => idsNormElems xs
  | _ => true

def idsNormKVs : List (String × Value) → Bool
  | [] => true
  | (k, v) :: rest =>
      (if k = "_id" then idsNormIdVal v else idsNormalized v) && idsNormKVs rest

def idsNormIdVal : Value → Bool
  | .vstr s => !ObjectId_is_valid s
  | .vdict ivs =>
      match lookupKey ivs "$in" with
      | some (.vlist ms) => ms.all (fun m => !isValidOidStr m)
      | _ => idsNormKVs ivs
  | .vlist xs => idsNormElems xs
  | _ => true

def idsNormElems : List Value → Bool
  | [] => true
  | x :: rest => idsNormalized x && idsNormElems rest
end

theorem convMembers_no_valid (ms : List Value) :
    (convMembers ms).all (fun m => !isValidOidStr m) = true := by
  induction ms with
  | nil => rfl
  | cons m rest ih =>
    cases m
    case vstr s =>
      rw [convMembers]
      by_cases hv : ObjectId_is_valid s = true
      · rw [if_pos hv]
        simp only [List.all_cons, Bool.and_eq_true]
        exact ⟨by simp [isValidOidStr, oidOfString], ih⟩
      · rw [if_neg hv]
        simp only [List.all_cons, Bool.and_eq_true]
        exact ⟨by simp only [isValidOidStr]; simpa using hv, ih⟩
    all_goals
      simp only [convMembers, List.all_cons, Bool.and_eq_true]
    all_goals
      exact ⟨by simp [isValidOidStr], ih⟩

/-- normalize_objectid never changes the outermost constructor except for
turning a string into an ObjectId, so it maps lists to lists and
non-lists to non-lists. -/
theorem isList_normalize (v : Value) :
    isList (normalize_objectid v) = isList v := by
  cases v <;> rfl

theorem lookupKey_normKVs (kvs : List (String × Value)) (key : String) :
    lookupKey (normKVs kvs) key =
      (lookupKey kvs key).map
        (fun v => if key = "_id" then normIdValue v else normalize_objectid v) := by
  induction kvs with
  | nil => rfl
  | cons e rest ih =>
    obtain ⟨k, v⟩ := e
    rw [normKVs, lookupKey, lookupKey]
    by_cases hk : key = k
    · subst hk
      simp
    · rw [if_neg hk, if_neg hk, ih]

mutual
theorem idsNorm_normalize : ∀ v : Value,
    idsNormalized (normalize_objectid v) = true
  | .vnull => rfl
  | .vbool _ => rfl
  | .vint _ => rfl
  | .vfloat _ => rfl
  | .vstr _ => rfl
  | .vbytes _ => rfl
  | .voidv _ => rfl
  | .vdatetime _ => rfl
  | .vdate _ => rfl
  | .vdict kvs => by
      rw [normalize_objectid, idsNormalized]
      exact idsNormKVs_normKVs kvs
  | .vlist xs => by
      rw [normalize_objectid, idsNormalized]
      exact idsNormElems_normElems xs

theorem idsNormKVs_normKVs : ∀ kvs : List (String × Value),
    idsNormKVs (normKVs kvs) = true
  | [] => rfl
  | (k, v) :: rest => by
      rw [normKVs, idsNormKVs]
      simp only [Bool.and_eq_true]
      constructor
      · by_cases hk : k = "_id"
        · rw [if_pos hk, if_pos hk]
          exact idsNormIdVal_normIdValue v
        · rw [if_neg hk, if_neg hk]
          exact idsNorm_normalize v
      · exact idsNormKVs_normKVs rest

theorem idsNormIdVal_normIdValue : ∀ v : Value,
    idsNormIdVal (normIdValue v) = true
  | .vnull => rfl
  | .vbool _ => rfl
  | .vint _ => rfl
  | .vfloat _ => rfl
  | .vbytes _ => rfl
  | .voidv _ => rfl
  | .vdatetime _ => rfl
  | .vdate _ => rfl
  | .vstr s => by
      rw [normIdValue]
      by_cases hv : ObjectId_is_valid s = true
      · rw [if_pos hv]
        rfl
      · rw [if_neg hv]
        rw [idsNormIdVal]
        simpa using hv
  | .vlist xs => by
      rw [normIdValue, idsNormIdVal]
      exact idsNormElems_normElems xs
  | .vdict ivs => by
      rw [normIdValue]
      cases hin : lookupKey ivs "$in" with
      | none =>
          show idsNormIdVal (Value.vdict (normKVs ivs)) = true
          rw [idsNormIdVal, lookupKey_normKVs, hin]
          exact idsNormKVs_normKVs ivs
      | some w =>
          cases w
          case vlist ms =>
            show idsNormIdVal
              (Value.vdict (setKey ivs "$in" (.vlist (convMembers ms)))) = true
            rw [idsNormIdVal]
            have hs : lookupKey (setKey ivs "$in" (.vlist (convMembers ms)))
                "$in" = some (.vlist (convMembers ms)) := by
              rw [lookupKey_setKey, hin]
              rfl
            rw [hs]
            exact convMembers_no_valid ms
          all_goals
            (show idsNormIdVal (Value.vdict (normKVs ivs)) = true
             rw [idsNormIdVal, lookupKey_normKVs, hin]
             exact idsNormKVs_normKVs ivs)

theorem idsNormElems_normElems : ∀ xs : List Value,
    idsNormElems (normElems xs) = true
  | [] => rfl
  | x :: rest => by
      rw [normElems, idsNormElems]
      simp only [Bool.and_eq_true]
      exact ⟨idsNorm_normalize x, idsNormElems_normElems rest⟩
end

theorem normKVs_id_string (kvs : List (String × Value)) (s : String)
    (hfound : lookupKey kvs "_id" = some (.vstr s))
    (hv : ObjectId_is_valid s = true) :
    lookupKey (normKVs kvs) "_id" = some (oidOfString s) := by
  rw [lookupKey_normKVs, hfound]
  simp [normIdValue, hv]

theorem normKVs_id_in (kvs ivs : List (String × Value)) (ms : List Value)
    (hfound : lookupKey kvs "_id" = some (.vdict ivs))
    (hin : lookupKey ivs "$in" = some (.vlist ms)) :
    lookupKey (normKVs kvs) "_id" =
      some (.vdict (setKey ivs "$in" (.vlist (convMembers ms)))) := by
  rw [lookupKey_normKVs, hfound]
  show some (normIdValue (.vdict ivs)) = _
  rw [normIdValue, hin]

/-- convMembers is exactly the per-member rewrite: every valid ObjectId
string member is replaced by the ObjectId it denotes, every other member
is kept unchanged. -/
theorem convMembers_eq_map (ms : List Value) :
    convMembers ms = ms.map
      (fun m => match m with
        | .vstr s => if ObjectId_is_valid s then oidOfString s else .vstr s
        | m => m) := by
  induction ms with
  | nil => rfl
  | cons m rest ih =>
    cases m <;> simp only [convMembers, List.map_cons, ih]

/-- The abstract collection handle the aggregation endpoint talks to:
counting, a single-document probe, and pipeline execution, each able to
fail (an exception in the source). -/
structure CollectionOps where
  countDocuments : Value → Except String Nat
  findOne : Value → Except String (Option Value)
  aggregateAll : List Value → Except String (List Value)

/-- DIAGNOSTIC CHECK 1 of the endpoint: total document count, recorded
as unknown (none) when counting raises. -/
def totalDocsOf (ops : CollectionOps) : Option Nat :=
  match ops.countDocuments (.vdict []) with
  | .ok n => some n
  | .error _ => none

/-- The filter of the first pipeline stage that is a mapping containing
the key $match, if any. -/
def firstMatchStage : List Value → Option Value
  | [] => none
  | .vdict kvs :: rest =>
      match lookupKey kvs "$match" with
      | some f => some f
      | none => firstMatchStage rest
  | _ :: rest => firstMatchStage rest

/-- DIAGNOSTIC CHECK 2: the number of documents satisfying the match
filter; count_documents first, then a find_one existence probe when
counting raises, unknown (none) when both raise. -/
def determineMatchCount (ops : CollectionOps) (f : Value) : Option Nat :=
  match ops.countDocuments f with
  | .ok n => some n
  | .error _ =>
    match ops.findOne f with
    | .ok found => some (if found.isSome then 1 else 0)
    | .error _ => none

def matchFailMessage : String :=
  "No documents matched the pipeline\x27s $match \u2014 check the field path, type, or value."

def optNatValue : Option Nat → Value
  | none => .vnull
  | some n => .vint (n : Int)

/-- The debug_info mapping built when the match count is zero. -/
def debugInfo (collectionName dbName : String) (totalDocs : Option Nat)
    (f : Value) : Value :=
  .vdict [("collection", .vstr collectionName),
    ("db_name", .vstr dbName),
    ("total_docs", optNatValue totalDocs),
    ("match_docs", .vint 0),
    ("match_filter", f),
    ("message", .vstr matchFailMessage)]

/-- Steps 5 to 8 of the aggregation endpoint, from the resolved database
and collection onward: run the two diagnostic counts; when the first
match stage exists and its determined count is exactly zero, return the
empty result list together with the debug payload without executing the
pipeline; otherwise execute the pipeline, convert every ObjectId in the
results to its string form and wrap them; an execution failure surfaces
as HTTP 500 carrying the underlying message. -/
def executePipeline (ops : CollectionOps) (pipeline : List Value) :
    Except (Nat × String) Value :=
  match ops.aggregateAll pipeline with
  | .ok rs => .ok (.vdict [("results", convert_objectids (.vlist rs))])
  | .error e => .error (500, e)

def run_aggregate (ops : CollectionOps) (collectionName dbName : String)
    (pipeline : List Value) : Except (Nat × String) Value :=
  match firstMatchStage pipeline with
  | some f =>
      if determineMatchCount ops f = some 0 then
        .ok (.vdict [("results", .vlist []),
          ("debug", debugInfo collectionName dbName (totalDocsOf ops) f)])
      else executePipeline ops pipeline
  | none => executePipeline ops pipeline

/-- Python truthiness of an optional string: present and non-empty. -/
def strTruthy : Option String → Bool
  | some s => if s = "" then false else true
  | none => false

def inferFailMessage (collectionName : String) : String :=
  "Database for collection \x27" ++ collectionName ++
    "\x27 could not be inferred. Please provide \x27db_name\x27 explicitly or ensure a default \x27DB_NAME\x27 is set in your environment."

/-- Step 4 of the endpoint, database resolution: the explicit payload
db_name when truthy; else the entry for the collection in the startup
collection-to-database map; else the DB_NAME environment variable when
truthy; else HTTP 400.  A final safety check raises HTTP 500 when the
chosen name is still falsy. -/
def resolve_db_name (payloadDbName : Option String) (collectionName : String)
    (collectionToDbMap : List (String × String))
    (envDbName : Option String) : Except (Nat × String) String :=
  let step : Except (Nat × String) (Option String) :=
    if strTruthy payloadDbName then .ok payloadDbName
    else
      match lookupKey collectionToDbMap collectionName with
      | some db => .ok (some db)
      | none =>
          if strTruthy envDbName then .ok envDbName
          else .error (400, inferFailMessage collectionName)
  match step with
  | .error e => .error e
  | .ok t =>
      if strTruthy t then .ok (t.getD "")
      else .error (500, "Failed to determine target database name.")

/-- The aggregation endpoint after request parsing: normalize ObjectId
strings in every stage, resolve the database, then run diagnostics and
the pipeline against the collection handle of the resolved database. -/
def aggregate_query (getOps : String → CollectionOps)
    (collectionToDbMap : List (String × String)) (envDbName : Option String)
    (payloadDbName : Option String) (collectionName : String)
    (pipeline : List Value) : Except (Nat × String) Value :=
  let normalized := pipeline.map normalize_objectid
  match resolve_db_name payloadDbName collectionName collectionToDbMap
      envDbName with
  | .error e => .error e
  | .ok dbName =>
      run_aggregate (getOps dbName) collectionName dbName normalized

/-- Schema entry for one field path: the sorted type tags and the
optional query guidance attached to timestamp-like fields. -/
structure FieldInfo where
  types : List String
  query_guidance : Option String

def guidanceText : String :=
  "For month/year filtering on this field, prefer using $addFields with $year and $month operators. Example: \x7b$addFields: \x7bdocYear: \x7b$year: \x27$<FIELD_NAME>\x27\x7d, docMonth: \x7b$month: \x27$<FIELD_NAME>\x27\x7d\x7d\x7d, \x7b$match: \x7bdocYear: 2025, docMonth: 7\x7d\x7d."

/-- Python sorted(list(types)): ascending insertion sort on tag strings. -/
def insertSorted (t : String) : List String → List String
  | [] => [t]
  | u :: rest => if t ≤ u then t :: u :: rest else u :: insertSorted t rest

def sortTags : List String → List String
  | [] => []
  | t :: rest => insertSorted t (sortTags rest)

theorem mem_insertSorted (t u : String) (l : List String) :
    u ∈ insertSorted t l ↔ u = t ∨ u ∈ l := by
  induction l with
  | nil => simp [insertSorted]
  | cons v rest ih =>
    rw [insertSorted]
    by_cases hle : t ≤ v
    · rw [if_pos hle]
      simp [List.mem_cons]
    · rw [if_neg hle]
      simp only [List.mem_cons, ih]
      tauto

theorem mem_sortTags (u : String) (l : List String) :
    u ∈ sortTags l ↔ u ∈ l := by
  induction l with
  | nil => simp [sortTags]
  | cons t rest ih =>
    rw [sortTags, mem_insertSorted, ih]
    simp [List.mem_cons]

/-- The field_info built for one path: sorted tag list plus the guidance
string when a datetime or date tag was seen or the path is the literal
sentinel Date. -/
def fieldInfoFor (path : String) (types : List String) : FieldInfo :=
  let field_types := sortTags types
  { types := field_types,
    query_guidance :=
      if ("datetime" ∈ field_types) ∨ ("date" ∈ field_types) ∨ path = "Date"
      then some guidanceText else none }

/-- The per-collection pass of get_schema_map_and_samples: union the
path/type maps of the flattened sampled documents, convert each entry to
field info, and normalize the flattened first document as the sample;
none models an exception escaping from _safe_value. -/
def buildCollection (docs : List Value) :
    Option (List (String × FieldInfo) × Option Value) :=
  let combined := docs.foldl
    (fun acc doc => mergeInto acc
      (extract_paths (flatten_nested_lists_recursively doc) "")) []
  let schema := combined.map (fun e => (e.1, fieldInfoFor e.1 e.2))
  match docs with
  | [] => some (schema, none)
  | d :: _ =>
      match safe_value (flatten_nested_lists_recursively d) with
      | none => none
      | some j => some (schema, some j)

/-- Python get_schema_map_and_samples restricted to its pure core: the
database collaborator is abstracted as the list of pairs of collection
name and the documents find().limit(sample_size) returned for it, in
enumeration order; the function returns the schema mapping and the
sample mapping over those collections. -/
def get_schema_map_and_samples
    (colls : List (String × List Value)) :
    Option (List (String × List (String × FieldInfo)) ×
      List (String × Option Value)) :=
  match colls with
  | [] => some ([], [])
  | (name, docs) :: rest =>
      match buildCollection docs with
      | none => none
      | some (cs, sample) =>
          match get_schema_map_and_samples rest with
          | none => none
          | some (s, m) => some ((name, cs) :: s, (name, sample) :: m)

theorem lookupKey_map_entry {α β : Type} (m : List (String × α))
    (f : String → α → β) (q : String) :
    lookupKey (m.map (fun e => (e.1, f e.1 e.2))) q =
      (lookupKey m q).map (f q) := by
  induction m with
  | nil => rfl
  | cons e rest ih =>
    obtain ⟨k, v⟩ := e
    rw [List.map_cons, lookupKey, lookupKey]
    by_cases hq : q = k
    · subst hq
      simp
    · rw [if_neg hq, if_neg hq, ih]

theorem mem_getTags_schema_fold (docs : List Value) (acc : PathMap)
    (p u : String) :
    u ∈ getTags (docs.foldl
      (fun a doc => mergeInto a
        (extract_paths (flatten_nested_lists_recursively doc) "")) acc) p ↔
      u ∈ getTags acc p ∨ ∃ d ∈ docs,
        u ∈ getTags (extract_paths (flatten_nested_lists_recursively d) "") p := by
  induction docs generalizing acc with
  | nil => simp [List.foldl_nil]
  | cons d rest ih =>
    rw [List.foldl_cons, ih]
    have hconv : u ∈ getTags (mergeInto acc
        (extract_paths (flatten_nested_lists_recursively d) "")) p ↔
        u ∈ getTags acc p ∨
          u ∈ getTags (extract_paths (flatten_nested_lists_recursively d) "") p := by
      rw [mem_getTags_mergeInto]
      rw [← mem_getTags_iff_exists _ _ _
        (extract_paths_invariants (flatten_nested_lists_recursively d) "").2]
    rw [hconv]
    simp only [List.mem_cons]
    constructor
    · rintro ((h | h) | ⟨d2, hd2, h⟩)
      · exact Or.inl h
      · exact Or.inr ⟨d, Or.inl rfl, h⟩
      · exact Or.inr ⟨d2, Or.inr hd2, h⟩
    · rintro (h | ⟨d2, hd2 | hd2, h⟩)
      · exact Or.inl (Or.inl h)
      · exact Or.inl (Or.inr (hd2 ▸ h))
      · exact Or.inr ⟨d2, hd2, h⟩

theorem schema_lookup (colls : List (String × List Value))
    (name : String) (docs : List Value)
    (hnd : (colls.map Prod.fst).Nodup) (hmem : (name, docs) ∈ colls)
    (s : List (String × List (String × FieldInfo)))
    (m : List (String × Option Value))
    (hok : get_schema_map_and_samples colls = some (s, m)) :
    ∃ cs sample, buildCollection docs = some (cs, sample) ∧
      lookupKey s name = some cs ∧ lookupKey m name = some sample := by
  induction colls generalizing s m with
  | nil => simp at hmem
  | cons e rest ih =>
    obtain ⟨n2, d2⟩ := e
    rw [get_schema_map_and_samples] at hok
    cases hb : buildCollection d2 with
    | none => rw [hb] at hok; exact absurd hok (by simp)
    | some pr =>
      obtain ⟨cs2, sm2⟩ := pr
      rw [hb] at hok
      cases hr : get_schema_map_and_samples rest with
      | none => rw [hr] at hok; exact absurd hok (by simp)
      | some pr2 =>
        obtain ⟨s2, m2⟩ := pr2
        rw [hr] at hok
        simp only [Option.some_inj, Prod.mk.injEq] at hok
        obtain ⟨hs, hm⟩ := hok
        subst hs
        subst hm
        simp only [List.map_cons, List.nodup_cons] at hnd
        rcases List.mem_cons.mp hmem with heq | hmem2
        · have hn : name = n2 := congrArg Prod.fst heq
          have hd : docs = d2 := congrArg Prod.snd heq
          subst hn
          subst hd
          exact ⟨cs2, sm2, hb, by rw [lookupKey, if_pos rfl],
            by rw [lookupKey, if_pos rfl]⟩
        · have hne : ¬ name = n2 := by
            intro hh
            apply hnd.1
            rw [← hh]
            exact List.mem_map_of_mem Prod.fst hmem2
          obtain ⟨cs, sample, hbc, hls, hlm⟩ := ih hnd.2 hmem2 s2 m2 hr
          exact ⟨cs, sample, hbc,
            by rw [lookupKey, if_neg hne]; exact hls,
            by rw [lookupKey, if_neg hne]; exact hlm⟩

theorem resolve_db_explicit (d collectionName : String)
    (cmap : List (String × String)) (env : Option String) (hd : d ≠ "") :
    resolve_db_name (some d) collectionName cmap env = .ok d := by
  rw [resolve_db_name]
  have ht : strTruthy (some d) = true := by simp [strTruthy, hd]
  rw [ht]
  simp [ht]

theorem resolve_db_from_map (collectionName db : String)
    (cmap : List (String × String)) (env : Option String)
    (hl : lookupKey cmap collectionName = some db) (hdb : db ≠ "") :
    resolve_db_name none collectionName cmap env = .ok db := by
  rw [resolve_db_name]
  have h1 : strTruthy none = false := rfl
  rw [h1]
  simp only [Bool.false_eq_true, if_false, hl]
  have h2 : strTruthy (some db) = true := by simp [strTruthy, hdb]
  simp [h2]

theorem resolve_db_from_env (collectionName e : String)
    (cmap : List (String × String))
    (hl : lookupKey cmap collectionName = none) (he : e ≠ "") :
    resolve_db_name none collectionName cmap (some e) = .ok e := by
  rw [resolve_db_name]
  have h1 : strTruthy none = false := rfl
  rw [h1]
  have h2 : strTruthy (some e) = true := by simp [strTruthy, he]
  simp only [Bool.false_eq_true, if_false, hl, h2, if_true]
  simp [h2]

theorem resolve_db_uninferred (collectionName : String)
    (cmap : List (String × String)) (env : Option String)
    (hl : lookupKey cmap collectionName = none)
    (he : strTruthy env = false) :
    resolve_db_name none collectionName cmap env =
      .error (400, inferFailMessage collectionName) := by
  rw [resolve_db_name]
  have h1 : strTruthy none = false := rfl
  rw [h1]
  simp [hl, he]

/-- C1 counterexample: the claim asserts that extract_paths samples only
the first element of a list-of-mappings and records its paths under the
parent path with the two-character bracket suffix appended, and that no
other entries appear.  On the document with one key a holding a one
element list of mappings with key b, the claimed path set (claim_paths)
contains the bracketed path, yet extract_paths does not produce it and
instead produces the unbracketed path a.b, which the claimed traversal
never generates.  Either half refutes the claimed equality of path sets. -/
theorem extract_paths_bracket_counterexample :
    ("a[].b" ∈ claim_paths
        (.vdict [("a", .vlist [.vdict [("b", .vint 1)]])]) "") ∧
    hasPath (extract_paths
        (.vdict [("a", .vlist [.vdict [("b", .vint 1)]])]) "") "a[].b" = false ∧
    hasPath (extract_paths
        (.vdict [("a", .vlist [.vdict [("b", .vint 1)]])]) "") "a.b" = true ∧
    ("a.b" ∉ claim_paths
        (.vdict [("a", .vlist [.vdict [("b", .vint 1)]])]) "") := by
  refine ⟨by decide, by decide, by decide, by decide⟩

/-- C1 (amended): extract_paths recurses into every element of a list,
not only the first, and uses the parent path unchanged, with no bracket
suffix; consequently extract_paths(D, cur) contains an entry exactly for
every key path reachable by dict traversal plus list-any-element
traversal (list elements inheriting the parent path), and no others.
The set reach_paths is that traversal, read off the amended description. -/
theorem extract_paths_matches_reach (v : Value) (cur p : String) :
    hasPath (extract_paths v cur) p = true ↔ p ∈ reach_paths v cur :=
  hasPath_extract v cur p

/-- C2 counterexample: one application of the flattener does not fully
flatten triple nesting, and the flattener is not idempotent: on the
sequence [[[1]]] the first application yields [[1]] and the second [1]. -/
theorem flatten_not_idempotent_counterexample :
    flatten_nested_lists_recursively (flatten_nested_lists_recursively
      (.vlist [.vlist [.vlist [.vint 1]]])) ≠
    flatten_nested_lists_recursively (.vlist [.vlist [.vlist [.vint 1]]]) := by
  intro h
  have h2 : Value.vlist [Value.vint 1] =
      Value.vlist [Value.vlist [Value.vint 1]] := h
  simp at h2

/-- C2 (amended): a second application of the flattener changes nothing
on every value whose list nesting is at most two deep, that is, no
sequence directly contains a sequence that itself directly contains a
sequence; each application collapses exactly one nesting level, so on
deeper nesting idempotence fails (see the counterexample). -/
theorem flatten_idempotent_on_nest_le_two (v : Value)
    (h : nestLe2 v = true) :
    flatten_nested_lists_recursively (flatten_nested_lists_recursively v) =
      flatten_nested_lists_recursively v :=
  flatten_of_isFlat _ (isFlat_flatten_of_nestLe2 v h)

/-- C2 witness: the amended idempotence applied at a concrete two-level
value. -/
theorem flatten_idempotent_on_nest_le_two_witness :
    nestLe2 (.vlist [.vlist [.vint 1], .vint 2,
        .vdict [("a", .vlist [.vint 3])]]) = true ∧
    flatten_nested_lists_recursively (flatten_nested_lists_recursively
      (.vlist [.vlist [.vint 1], .vint 2,
        .vdict [("a", .vlist [.vint 3])]])) =
    flatten_nested_lists_recursively
      (.vlist [.vlist [.vint 1], .vint 2,
        .vdict [("a", .vlist [.vint 3])]]) :=
  ⟨by decide, flatten_idempotent_on_nest_le_two _ (by decide)⟩

/-- C3 counterexample: the normalizer is not total on mappings whose
wrapper payloads have arbitrary shapes; on the wrapper mapping carrying
a null payload under the numeric-int key, the source evaluates int(None)
and raises, modelled by a none result. -/
theorem safe_value_raises_counterexample :
    (safe_value (.vdict [("$numberInt", .vnull)])).isSome = false := rfl

/-- C3 (amended): the normalizer is total and returns a JSON-representable
value on every input whose recognized wrapper keys carry payloads the
conversion chains accept — numbers, booleans, or integer-literal strings
for the numeric wrappers, with integers below the float overflow bound
for the double wrapper, and numbers within the supported datetime range
for the date wrapper — with all other values recursively well formed
along the paths the normalizer takes; on other wrapper payloads it can
raise: int(None) (the counterexample), float of an integer of magnitude
at least 2^1024, or fromtimestamp of an out-of-range epoch (see
safe_value_date_out_of_range and safe_value_double_overflow). -/
theorem safe_value_total_on_wellformed_wrappers (v : Value)
    (h : wrappers_ok v = true) :
    ∃ j, safe_value v = some j ∧ jsonSafe j = true :=
  safe_value_total v h

/-- C3 witness: totality applied at a concrete document carrying a date
wrapper, an ObjectId, bytes and primitives. -/
theorem safe_value_total_witness :
    wrappers_ok (.vdict [("a", .vdict [("$date", .vint 1700000000000)]),
      ("b", .vlist [.vstr "x", .vnull, .voidv [1, 2]]),
      ("c", .vdict [("$numberInt", .vstr "42")])]) = true ∧
    ∃ j, safe_value (.vdict [("a", .vdict [("$date", .vint 1700000000000)]),
      ("b", .vlist [.vstr "x", .vnull, .voidv [1, 2]]),
      ("c", .vdict [("$numberInt", .vstr "42")])]) = some j ∧
      jsonSafe j = true :=
  ⟨by decide, safe_value_total_on_wellformed_wrappers _ (by decide)⟩

/-- C4: whenever the pipeline has a first stage containing a match filter
and the pre-flight count determined for that filter (count_documents,
falling back to the find_one probe) is exactly zero, the endpoint
returns the empty result list together with the diagnostic mapping
carrying the collection name, the resolved database name, the total
count, the zero match count, the offending filter and the fixed hint
message — and it does so for every possible pipeline executor, so the
pipeline itself is never consulted. -/
theorem aggregate_zero_match_short_circuit (ops : CollectionOps)
    (g : List Value → Except String (List Value))
    (collectionName dbName : String) (pipeline : List Value) (f : Value)
    (hf : firstMatchStage pipeline = some f)
    (hc : determineMatchCount ops f = some 0) :
    run_aggregate ⟨ops.countDocuments, ops.findOne, g⟩ collectionName dbName
      pipeline =
      .ok (.vdict [("results", .vlist []),
        ("debug", debugInfo collectionName dbName (totalDocsOf ops) f)]) := by
  rw [run_aggregate, hf]
  have hc2 : determineMatchCount ⟨ops.countDocuments, ops.findOne, g⟩ f =
      some 0 := hc
  simp only [hc2, if_pos]
  rfl

/-- C4 witness: the short circuit at a concrete store with five documents
none of which match, and an executor that would fail if it were ever
invoked. -/
theorem aggregate_zero_match_short_circuit_witness :
    run_aggregate
      ⟨fun v => match v with
          | .vdict [] => .ok 5
          | _ => .ok 0,
        fun _ => .ok none,
        fun _ => .error "must not execute"⟩
      "orders" "shop"
      [.vdict [("$match", .vdict [("status", .vstr "shipped")])]] =
      .ok (.vdict [("results", .vlist []),
        ("debug", debugInfo "orders" "shop" (some 5)
          (.vdict [("status", .vstr "shipped")]))]) :=
  aggregate_zero_match_short_circuit
    ⟨fun v => match v with
        | .vdict [] => .ok 5
        | _ => .ok 0,
      fun _ => .ok none,
      fun _ => .error "unused"⟩
    (fun _ => .error "must not execute") "orders" "shop"
    [.vdict [("$match", .vdict [("status", .vstr "shipped")])]]
    (.vdict [("status", .vstr "shipped")]) rfl rfl

/-- C5: database resolution follows the exact precedence of the source:
a non-empty explicit db_name wins; otherwise a non-empty entry for the
collection in the collection-to-database map; otherwise a non-empty
DB_NAME environment value; otherwise the call fails with the HTTP 400
client-error classification naming the inference failure.  Emptiness
matches Python truthiness: an empty string behaves as absent. -/
theorem resolve_db_precedence :
    (∀ (d collectionName : String) (cmap : List (String × String))
        (env : Option String), d ≠ "" →
      resolve_db_name (some d) collectionName cmap env = .ok d) ∧
    (∀ (collectionName db : String) (cmap : List (String × String))
        (env : Option String), lookupKey cmap collectionName = some db →
      db ≠ "" → resolve_db_name none collectionName cmap env = .ok db) ∧
    (∀ (collectionName e : String) (cmap : List (String × String)),
      lookupKey cmap collectionName = none → e ≠ "" →
      resolve_db_name none collectionName cmap (some e) = .ok e) ∧
    (∀ (collectionName : String) (cmap : List (String × String))
        (env : Option String), lookupKey cmap collectionName = none →
      strTruthy env = false →
      resolve_db_name none collectionName cmap env =
        .error (400, inferFailMessage collectionName)) :=
  ⟨fun d c cmap env hd => resolve_db_explicit d c cmap env hd,
    fun c db cmap env hl hdb => resolve_db_from_map c db cmap env hl hdb,
    fun c e cmap hl he => resolve_db_from_env c e cmap hl he,
    fun c cmap env hl he => resolve_db_uninferred c cmap env hl he⟩

/-- C5 witness: the precedence applied at the concrete example of the
specification — collection orders, no explicit db_name, map entry orders
to shop — plus the explicit-name case. -/
theorem resolve_db_precedence_witness :
    resolve_db_name none "orders" [("orders", "shop")] none = .ok "shop" ∧
    resolve_db_name (some "mydb") "orders" [("orders", "shop")] none =
      .ok "mydb" :=
  ⟨resolve_db_precedence.2.1 "orders" "shop" [("orders", "shop")] none rfl
      (by decide),
    resolve_db_precedence.1 "mydb" "orders" [("orders", "shop")] none
      (by decide)⟩

/-- C6 counterexample: the claim asserts that every key literally named
_id whose value is a valid identifier string is rewritten.  The full
checker noRawIdStrings formalizes that postcondition by unrestricted
recursion.  On a stage whose _id value is a $in filter mapping that also
carries a sibling binding x holding a nested mapping with a valid _id
string, the pass converts the (empty) member list and never visits the
sibling, so the inner valid _id string survives and the postcondition
fails; indeed the whole stage is returned unchanged. -/
theorem normalize_objectid_counterexample :
    noRawIdStrings (normalize_objectid
      (.vdict [("_id", .vdict [("$in", .vlist []),
        ("x", .vdict [("_id", .vstr "507f191e810c19729de860ea")])])])) =
      false ∧
    normalize_objectid
      (.vdict [("_id", .vdict [("$in", .vlist []),
        ("x", .vdict [("_id", .vstr "507f191e810c19729de860ea")])])]) =
      (.vdict [("_id", .vdict [("$in", .vlist []),
        ("x", .vdict [("_id", .vstr "507f191e810c19729de860ea")])])]) :=
  ⟨by decide, rfl⟩

/-- C6 (amended): along every traversal path the rewriting pass actually
visits, no valid identifier string survives under an _id key — where an
_id binding holding a $in filter mapping has only its member list
visited, its other bindings and non-string members being exempt
(idsNormalized is that checker); a top-level _id string in valid form is
rewritten to the ObjectId it denotes; the member list of an _id-keyed
$in filter is rewritten member-wise, valid strings becoming ObjectIds
and everything else kept; the source mutates the stage in place, which
this pure transform models; and in returned results every ObjectId is
converted to its string form, none remaining. -/
theorem normalize_objectid_rewrites_visited_ids :
    (∀ v : Value, idsNormalized (normalize_objectid v) = true) ∧
    (∀ (kvs : List (String × Value)) (s : String),
      lookupKey kvs "_id" = some (.vstr s) → ObjectId_is_valid s = true →
      normalize_objectid (.vdict kvs) = .vdict (normKVs kvs) ∧
      lookupKey (normKVs kvs) "_id" = some (oidOfString s)) ∧
    (∀ (kvs ivs : List (String × Value)) (ms : List Value),
      lookupKey kvs "_id" = some (.vdict ivs) →
      lookupKey ivs "$in" = some (.vlist ms) →
      lookupKey (normKVs kvs) "_id" =
        some (.vdict (setKey ivs "$in" (.vlist (convMembers ms)))) ∧
      convMembers ms = ms.map (fun m => match m with
        | .vstr s2 =>
            if ObjectId_is_valid s2 then oidOfString s2 else .vstr s2
        | m => m)) ∧
    (∀ v : Value, hasOid (convert_objectids v) = false) ∧
    (∀ bs : List Nat,
      convert_objectids (.voidv bs) = .vstr (hexEncode bs)) :=
  ⟨idsNorm_normalize,
    fun kvs s h1 h2 => ⟨rfl, normKVs_id_string kvs s h1 h2⟩,
    fun kvs ivs ms h1 h2 =>
      ⟨normKVs_id_in kvs ivs ms h1 h2, convMembers_eq_map ms⟩,
    hasOid_convert,
    fun _ => rfl⟩

/-- C6 witness: the rewrites applied at concrete stages — a top-level
valid _id string and an _id-keyed $in list holding one valid string and
one integer. -/
theorem normalize_objectid_rewrites_witness :
    lookupKey (normKVs [("_id", .vstr "507f191e810c19729de860ea")]) "_id" =
      some (oidOfString "507f191e810c19729de860ea") ∧
    lookupKey (normKVs
        [("_id", .vdict [("$in",
          .vlist [.vstr "507f191e810c19729de860ea", .vint 7])])]) "_id" =
      some (.vdict (setKey
        [("$in", .vlist [.vstr "507f191e810c19729de860ea", .vint 7])] "$in"
        (.vlist (convMembers
          [.vstr "507f191e810c19729de860ea", .vint 7])))) :=
  ⟨(normalize_objectid_rewrites_visited_ids.2.1
      [("_id", .vstr "507f191e810c19729de860ea")]
      "507f191e810c19729de860ea" rfl (by decide)).2,
    (normalize_objectid_rewrites_visited_ids.2.2.1
      [("_id", .vdict [("$in",
        .vlist [.vstr "507f191e810c19729de860ea", .vint 7])])]
      [("$in", .vlist [.vstr "507f191e810c19729de860ea", .vint 7])]
      [.vstr "507f191e810c19729de860ea", .vint 7] rfl rfl).1⟩

/-- C7: the schema aggregator maps a collection with zero sampled
documents to the empty schema mapping with an absent sample, and a
non-empty collection to the per-path union of the type tags extracted
from its flattened sampled documents, with the flattened and normalized
first sampled document as its sample (the tag lists are stored sorted;
the statement compares memberships). -/
theorem schema_aggregator_schema_and_samples
    (colls : List (String × List Value))
    (s : List (String × List (String × FieldInfo)))
    (m : List (String × Option Value))
    (hnd : (colls.map Prod.fst).Nodup)
    (hok : get_schema_map_and_samples colls = some (s, m)) :
    (∀ name, (name, ([] : List Value)) ∈ colls →
      lookupKey s name = some [] ∧ lookupKey m name = some none) ∧
    (∀ name d ds, (name, d :: ds) ∈ colls →
      ∃ cs j, lookupKey s name = some cs ∧
        safe_value (flatten_nested_lists_recursively d) = some j ∧
        lookupKey m name = some (some j) ∧
        ∀ p u, (u ∈ ((lookupKey cs p).map FieldInfo.types).getD [] ↔
          ∃ doc ∈ d :: ds,
            u ∈ getTags (extract_paths
              (flatten_nested_lists_recursively doc) "") p)) := by
  constructor
  · intro name hmem
    obtain ⟨cs, sample, hbc, hls, hlm⟩ :=
      schema_lookup colls name [] hnd hmem s m hok
    have hb0 : buildCollection ([] : List Value) = some ([], none) := rfl
    rw [hb0] at hbc
    simp only [Option.some_inj, Prod.mk.injEq] at hbc
    obtain ⟨hcs, hsm⟩ := hbc
    exact ⟨by rw [hls, ← hcs], by rw [hlm, ← hsm]⟩
  · intro name d ds hmem
    obtain ⟨cs, sample, hbc, hls, hlm⟩ :=
      schema_lookup colls name (d :: ds) hnd hmem s m hok
    rw [buildCollection] at hbc
    cases hsv : safe_value (flatten_nested_lists_recursively d) with
    | none =>
        rw [hsv] at hbc
        simp at hbc
    | some j =>
        rw [hsv] at hbc
        simp only [Option.some_inj, Prod.mk.injEq] at hbc
        obtain ⟨hcs, hsm⟩ := hbc
        refine ⟨cs, j, hls, rfl, ?_, ?_⟩
        · rw [hlm, ← hsm]
        intro p u
        rw [← hcs]
        have hfold := mem_getTags_schema_fold (d :: ds) [] p u
        have hnil : u ∈ getTags [] p ↔ False := by simp [getTags, lookupKey]
        rw [hnil] at hfold
        simp only [false_or] at hfold
        rw [← hfold]
        rw [lookupKey_map_entry, getTags]
        cases hc : lookupKey ((d :: ds).foldl
            (fun a doc => mergeInto a
              (extract_paths (flatten_nested_lists_recursively doc) "")) []) p with
        | none => simp
        | some ts => simp [fieldInfoFor, mem_sortTags]

/-- Concrete database contents for the C7 witness: one collection with a
single two-field document and one empty collection. -/
def sampleDoc : Value := .vdict [("a", .vint 1), ("b", .vstr "x")]

def sampleColls : List (String × List Value) :=
  [("users", [sampleDoc]), ("empty", [])]

def sampleSchema : List (String × List (String × FieldInfo)) :=
  [("users", [("a", ⟨["int"], none⟩), ("b", ⟨["str"], none⟩)]),
    ("empty", [])]

def sampleSamples : List (String × Option Value) :=
  [("users", some sampleDoc), ("empty", none)]

/-- C7 witness: the aggregator applied at the concrete database with a
users collection and an empty collection. -/
theorem schema_aggregator_witness :
    (∀ name, (name, ([] : List Value)) ∈ sampleColls →
      lookupKey sampleSchema name = some [] ∧
      lookupKey sampleSamples name = some none) ∧
    (∀ name d ds, (name, d :: ds) ∈ sampleColls →
      ∃ cs j, lookupKey sampleSchema name = some cs ∧
        safe_value (flatten_nested_lists_recursively d) = some j ∧
        lookupKey sampleSamples name = some (some j) ∧
        ∀ p u, (u ∈ ((lookupKey cs p).map FieldInfo.types).getD [] ↔
          ∃ doc ∈ d :: ds,
            u ∈ getTags (extract_paths
              (flatten_nested_lists_recursively doc) "") p)) :=
  schema_aggregator_schema_and_samples sampleColls sampleSchema
    sampleSamples (by decide) rfl

/-- C8 counterexample: a sequence whose only element is a mapping (hence
all elements are non-sequences) is changed by the flattener when the
mapping itself contains a nested list of lists, refuting identity on
such sequences. -/
theorem flatten_flat_elements_counterexample :
    (([.vdict [("a", .vlist [.vlist [.vint 1]])]] : List Value).all
      (fun x => !isList x)) = true ∧
    flatten_nested_lists_recursively
      (.vlist [.vdict [("a", .vlist [.vlist [.vint 1]])]]) ≠
      .vlist [.vdict [("a", .vlist [.vlist [.vint 1]])]] := by
  refine ⟨by decide, ?_⟩
  intro h
  have h2 : Value.vlist [Value.vdict [("a", Value.vlist [Value.vint 1])]] =
      Value.vlist [Value.vdict [("a",
        Value.vlist [Value.vlist [Value.vint 1]])]] := h
  simp at h2

/-- C8 (amended): the flattener is the identity on every sequence whose
elements are all non-sequences and themselves flat, meaning no list
anywhere inside them directly contains a list (isFlatElems checks
exactly this); when an element mapping hides a nested list of lists the
identity fails (see the counterexample). -/
theorem flatten_identity_on_flat_elements (xs : List Value)
    (h : isFlatElems xs = true) :
    flatten_nested_lists_recursively (.vlist xs) = .vlist xs :=
  flatten_of_isFlat _ (by simpa [isFlat] using h)

/-- C8 witness: identity at a concrete flat sequence of a number, a
mapping holding a flat list, and a string. -/
theorem flatten_identity_on_flat_elements_witness :
    isFlatElems [.vint 1, .vdict [("a", .vlist [.vint 2])], .vstr "s"] =
      true ∧
    flatten_nested_lists_recursively
      (.vlist [.vint 1, .vdict [("a", .vlist [.vint 2])], .vstr "s"]) =
      .vlist [.vint 1, .vdict [("a", .vlist [.vint 2])], .vstr "s"] :=
  ⟨by decide, flatten_identity_on_flat_elements _ (by decide)⟩

/-- C9: rendering a canonical 12-byte identifier to its 24-character
lowercase hex string (as the normalizer does) and converting that string
back to canonical form (as the request-bound normalizer does for valid
identifier strings under _id) yields the original identifier. -/
theorem objectid_string_roundtrip (bs : List Nat) (h12 : bs.length = 12)
    (hb : ∀ b ∈ bs, b < 256) :
    safe_value (.voidv bs) = some (.vstr (hexEncode bs)) ∧
    ObjectId_is_valid (hexEncode bs) = true ∧
    normalize_objectid (.vdict [("_id", .vstr (hexEncode bs))]) =
      .vdict [("_id", .voidv bs)] := by
  refine ⟨rfl, ObjectId_is_valid_hexEncode bs h12 hb, ?_⟩
  rw [normalize_objectid, normKVs, normKVs]
  rw [if_pos rfl]
  rw [normIdValue, if_pos (ObjectId_is_valid_hexEncode bs h12 hb)]
  rw [oidOfString, hexDecodePairs_hexEncode bs hb]

/-- C9 witness: the round trip at a concrete 12-byte identifier. -/
theorem objectid_string_roundtrip_witness :
    safe_value (.voidv [7, 15, 0, 255, 1, 2, 3, 4, 5, 6, 8, 9]) =
      some (.vstr (hexEncode [7, 15, 0, 255, 1, 2, 3, 4, 5, 6, 8, 9])) ∧
    ObjectId_is_valid
      (hexEncode [7, 15, 0, 255, 1, 2, 3, 4, 5, 6, 8, 9]) = true ∧
    normalize_objectid (.vdict [("_id",
      .vstr (hexEncode [7, 15, 0, 255, 1, 2, 3, 4, 5, 6, 8, 9]))]) =
      .vdict [("_id", .voidv [7, 15, 0, 255, 1, 2, 3, 4, 5, 6, 8, 9])] :=
  objectid_string_roundtrip [7, 15, 0, 255, 1, 2, 3, 4, 5, 6, 8, 9]
    (by decide) (by decide)

/-- C10 counterexample: a mapping key may itself contain a dot; on the
document with the single key a.b the extracted path a.b contains a dot
but its parent prefix a is not an extracted path, so the extracted path
set is not closed under dotted-path prefixes. -/
theorem extract_paths_dotted_key_counterexample :
    hasPath (extract_paths (.vdict [("a.b", .vint 1)]) "") "a.b" = true ∧
    hasDot "a.b" = true ∧
    hasPath (extract_paths (.vdict [("a.b", .vint 1)]) "")
      (parentOfPath "a.b") = false := by
  refine ⟨by decide, by decide, by decide⟩

/-- C10 (amended): for every mapping document none of whose keys, at any
nesting level, contains a dot, the extracted path set is closed under
taking dotted-path prefixes: every extracted path containing a dot has
its parent prefix (the path truncated at its last dot) extracted as
well.  With a dotted key the closure fails (see the counterexample). -/
theorem extract_paths_prefix_closure_dotfree (kvs : List (String × Value))
    (hnd : noDotKeys (.vdict kvs) = true) (p : String)
    (hp : hasPath (extract_paths (.vdict kvs) "") p = true)
    (hdot : hasDot p = true) :
    hasPath (extract_paths (.vdict kvs) "") (parentOfPath p) = true := by
  rw [hasPath_extract] at hp ⊢
  rcases reach_parent (.vdict kvs) "" p hnd hp hdot with ⟨hpar, hne⟩ | hin
  · exact absurd rfl hne
  · exact hin

/-- C10 witness: prefix closure at a concrete nested document and the
path a.b. -/
theorem extract_paths_prefix_closure_witness :
    noDotKeys (.vdict [("a", .vdict [("b", .vint 1)])]) = true ∧
    hasPath (extract_paths (.vdict [("a", .vdict [("b", .vint 1)])]) "")
      "a.b" = true ∧
    hasDot "a.b" = true ∧
    hasPath (extract_paths (.vdict [("a", .vdict [("b", .vint 1)])]) "")
      (parentOfPath "a.b") = true :=
  ⟨by decide, by decide, by decide,
    extract_paths_prefix_closure_dotfree _ (by decide) _ (by decide)
      (by decide)⟩

end Mongo
